import Mathlib

/-!
# Syntax highlighting and copy buttons for documentation pages (`assets/js/highlight.js`)

The script does two things. At module load it registers nine language names with the
highlighting engine. When the document is parsed it decorates every element matching
`pre code`: it builds a wrapper (a `div` with a `button` that carries the block's text and an
empty `span`), inserts it before the parent of the block, and calls the highlighter on the
block.

The embedding keeps the script's own steps and names. What the script calls but does not
define is modelled as follows.

* The DOM is a forest of nodes, each with the identity of its object (`Ref`); the document
  node holds the top-level trees, and trees removed from the document are kept, since the
  script still holds references into them. `parentNode`, `textContent`, `insertBefore` and
  `querySelectorAll` are the DOM operations of those names.
* The highlighter is a parameter. A call of it throws, leaves the block as it is, or replaces
  the class and the children of the block; it changes nothing else.
* An exception ends the run; the state reached is kept, as the DOM keeps it.
-/

namespace Doks

/-! ## Language registry setup (source lines 1-20) -/

/-- The grammar modules the script imports from `highlight.js/lib/languages/`. -/
inductive Grammar where
  | javascript | json | bash | htmlbars | ini | yaml | markdown | python
  deriving DecidableEq

/-- Modelled from the spec: the highlighting engine is an external library; its table of
registered languages is a list of bindings of a name to a grammar, in order of registration. -/
abbrev Registry := List (String × Grammar)

/-- Modelled from the spec: the engine's operation "register a named grammar",
`registerLanguage(name, grammar)`, binds the name to the grammar, replacing an earlier binding of
the same name. -/
def registerLanguage (name : String) (grammar : Grammar) (registry : Registry) : Registry :=
  registry.filter (fun entry => decide (entry.1 ≠ name)) ++ [(name, grammar)]

/-- The nine `hljs.registerLanguage` statements of the script, top to bottom. -/
def registrations : List (String × Grammar) :=
  [("javascript", .javascript), ("json", .json), ("bash", .bash), ("html", .htmlbars),
   ("ini", .ini), ("toml", .ini), ("yaml", .yaml), ("md", .markdown), ("python", .python)]

/-- Module load: the registration statements run in order on the engine's table. -/
def setup (registry : Registry) : Registry :=
  registrations.foldl (fun reg entry => registerLanguage entry.1 entry.2 reg) registry

/-- Modelled from the spec: the grammar a name resolves to in the engine's table. -/
def getLanguage (registry : Registry) (name : String) : Option Grammar :=
  (registry.find? (fun entry => decide (entry.1 = name))).map Prod.snd

/-- Modelled from the spec: highlighting a text under a language name, the engine resolves the
name and runs the grammar it finds; `render`, what the engine computes from a grammar and a
text, is a parameter. -/
def highlight {α : Type} (render : Grammar → String → α) (registry : Registry)
    (name code : String) : Option α :=
  (getLanguage registry name).map (fun grammar => render grammar code)

/-! ## The DOM -/

/-- Identity of a node object: parsed from the page, made by the script's `createElement`
(numbered in order of creation), or made by the highlighting engine (never referenced by the
script). -/
inductive Ref where
  | page (n : Nat)
  | script (n : Nat)
  | engine
  deriving DecidableEq

/-- Whether the node was parsed from the page. -/
def Ref.isPage : Ref → Bool
  | .page _ => true
  | _ => false

/-- Whether the node was created by the script. -/
def Ref.isScript : Ref → Bool
  | .script _ => true
  | _ => false

/-- An element (with its local name, in lower case as the parser and `createElement` give it,
its class, its other attributes and its children in sibling order) or a text node. -/
inductive Node where
  | element (ref : Ref) (localName : String) (className : String)
      (attributes : List (String × String)) (childNodes : List Node)
  | text (ref : Ref) (data : String)

namespace Node

/-- The identity of the node. -/
def ref : Node → Ref
  | element r _ _ _ _ => r
  | text r _ => r

/-- The `childNodes` property. -/
def childNodes : Node → List Node
  | element _ _ _ _ kids => kids
  | text _ _ => []

/-- The `localName` property. -/
def localName : Node → String
  | element _ t _ _ _ => t
  | text _ _ => "#text"

/-- The `className` property. -/
def className : Node → String
  | element _ _ c _ _ => c
  | text _ _ => ""

/-- The attributes other than `class`. -/
def attributes : Node → List (String × String)
  | element _ _ _ a _ => a
  | text _ _ => []

/-- The call `n.getAttribute(name)`. -/
def getAttribute (n : Node) (name : String) : Option String :=
  (n.attributes.find? (fun a => decide (a.1 = name))).map Prod.snd

/-- The assignment `n.className = c`. -/
def setClassName : Node → String → Node
  | element r t _ a kids, c => element r t c a kids
  | text r d, _ => text r d

/-- The call `n.setAttribute(name, value)`. -/
def setAttribute : Node → String → String → Node
  | element r t c a kids, name, value =>
    element r t c (a.filter (fun x => decide (x.1 ≠ name)) ++ [(name, value)]) kids
  | text r d, _, _ => text r d

/-- The call `n.appendChild(child)` on a node not yet in a tree. -/
def appendChild : Node → Node → Node
  | element r t c a kids, child => element r t c a (kids ++ [child])
  | text r d, _ => text r d

end Node

/-- The `document.createElement(tag)` call number `n` of the run: a fresh, empty element. -/
def createElement (n : Nat) (tag : String) : Node :=
  .element (.script n) tag "" [] []

mutual
/-- The references of a subtree, in document (pre-) order. -/
def Node.refs : Node → List Ref
  | .element r _ _ _ kids => r :: refsList kids
  | .text r _ => [r]
def refsList : List Node → List Ref
  | [] => []
  | n :: ns => n.refs ++ refsList ns
end

mutual
/-- All nodes of a subtree (each with its own subtree), in document order. -/
def Node.subtrees : Node → List Node
  | .element r t c a kids => .element r t c a kids :: subtreesList kids
  | .text r d => [.text r d]
def subtreesList : List Node → List Node
  | [] => []
  | n :: ns => n.subtrees ++ subtreesList ns
end

mutual
/-- The `textContent` property: the data of all text descendants, concatenated in document
order. -/
def Node.textContent : Node → String
  | .element _ _ _ _ kids => textContentList kids
  | .text _ d => d
def textContentList : List Node → String
  | [] => ""
  | n :: ns => n.textContent ++ textContentList ns
end

mutual
/-- The elements matching the selector `pre code` in a subtree, in document order; `inPre` says
whether an ancestor is a `pre` element. -/
def Node.matchPreCode (inPre : Bool) : Node → List Ref
  | .element r tag _ _ kids =>
    (if inPre && decide (tag = "code") then [r] else [])
      ++ matchPreCodeList (inPre || decide (tag = "pre")) kids
  | .text _ _ => []
def matchPreCodeList (inPre : Bool) : List Node → List Ref
  | [] => []
  | n :: ns => n.matchPreCode inPre ++ matchPreCodeList inPre ns
end

/-- The call `document.querySelectorAll("pre code")`: a static list of the matching elements of
the document, in document order. -/
def querySelectorAll (document : List Node) : List Ref :=
  matchPreCodeList false document

mutual
/-- The node with the given reference, first in document order. -/
def Node.find (r : Ref) : Node → Option Node
  | .element r' t c a kids =>
    if r' = r then some (.element r' t c a kids) else findList r kids
  | .text r' d => if r' = r then some (.text r' d) else none
def findList (r : Ref) : List Node → Option Node
  | [] => none
  | n :: ns =>
    match n.find r with
    | some m => some m
    | none => findList r ns
end

/-- Whether one of the listed nodes has the given reference. -/
def hasRoot (r : Ref) (nodes : List Node) : Bool :=
  nodes.any (fun n => decide (n.ref = r))

mutual
/-- The element whose child list holds the node with the given reference. -/
def Node.parentOf (r : Ref) : Node → Option Ref
  | .element r' _ _ _ kids => if hasRoot r kids then some r' else parentOfList r kids
  | .text _ _ => none
def parentOfList (r : Ref) : List Node → Option Ref
  | [] => none
  | n :: ns =>
    match n.parentOf r with
    | some p => some p
    | none => parentOfList r ns
end

/-- A child list with `newNode` put right before the child `reference`; the script only asks
for a `reference` that is a child. -/
def insertAt (newNode : Node) (reference : Ref) : List Node → List Node
  | [] => []
  | n :: ns =>
    if n.ref = reference then newNode :: n :: ns else n :: insertAt newNode reference ns

mutual
/-- The call `parent.insertBefore(newNode, reference)` seen from a tree that may hold
`parent`. -/
def Node.insertBefore (parent : Ref) (newNode : Node) (reference : Ref) : Node → Node
  | .element r t c a kids =>
    if r = parent then
      .element r t c a (insertAt newNode reference (insertBeforeList parent newNode reference kids))
    else .element r t c a (insertBeforeList parent newNode reference kids)
  | .text r d => .text r d
def insertBeforeList (parent : Ref) (newNode : Node) (reference : Ref) : List Node → List Node
  | [] => []
  | n :: ns =>
    Node.insertBefore parent newNode reference n
      :: insertBeforeList parent newNode reference ns
end

/-- Markup the highlighting engine writes into a block: elements and text, not yet nodes. -/
inductive Markup where
  | element (localName : String) (className : String) (childNodes : List Markup)
  | text (data : String)

mutual
/-- Parsing the engine's markup creates new nodes. -/
def Markup.toNode : Markup → Node
  | .element t c kids => .element .engine t c [] (toNodes kids)
  | .text d => .text .engine d
def toNodes : List Markup → List Node
  | [] => []
  | m :: ms => m.toNode :: toNodes ms
end

mutual
/-- The engine's write to a block (`block.innerHTML = …; block.className = …`) seen from a tree
that may hold the block: the block gets the new class and the new children. -/
def Node.rewrite (block : Ref) (className : String) (contents : List Node) : Node → Node
  | .element r t c a kids =>
    if r = block then .element r t className a contents
    else .element r t c a (rewriteList block className contents kids)
  | .text r d => .text r d
def rewriteList (block : Ref) (className : String) (contents : List Node) :
    List Node → List Node
  | [] => []
  | n :: ns => n.rewrite block className contents :: rewriteList block className contents ns
end

mutual
/-- The children the engine's write removes from the block; they stay alive, without parent. -/
def Node.removed (block : Ref) : Node → List Node
  | .element r _ _ _ kids => if r = block then kids else removedList block kids
  | .text _ _ => []
def removedList (block : Ref) : List Node → List Node
  | [] => []
  | n :: ns => n.removed block ++ removedList block ns
end

/-! ## The block decorator (source lines 22-46) -/

/-- What the `parentNode` property of a node gives. -/
inductive Parent where
  | null
  | document
  | element (ref : Ref)
  deriving DecidableEq

/-- An exception that ends the run. -/
inductive Failure where
  | typeError
  | hierarchyRequestError
  | highlighterError
  deriving DecidableEq

/-- Modelled from the spec: the highlighter is external and "mutates the rendered markup" of
the block it is given. A call throws, or leaves the block untouched (a block the engine
skips), or gives the block a class and new contents. -/
inductive Highlighted where
  | threw
  | untouched
  | rewritten (className : String) (innerHTML : List Markup)

/-- The external highlighter: it sees the document, the nodes outside the document and the
block it is called on. -/
abbrev Highlighter := List Node → List Node → Ref → Highlighted

/-- A step the run has taken on the outside world. -/
inductive Event where
  | inserted (block : Ref) (wrapper : Node) (parent : Ref) (reference : Ref)
  | highlighted (block : Ref)

/-- The state of a run: the children of the document node, the trees removed from the
document (their roots have no parent), the number of `createElement` calls so far, and the
steps taken. -/
structure State where
  document : List Node
  detached : List Node
  created : Nat
  trace : List Event

/-- The `parentNode` property of the node `r`. -/
def parentNode (document detached : List Node) (r : Ref) : Parent :=
  if hasRoot r document then .document
  else
    match parentOfList r document with
    | some p => .element p
    | none =>
      match parentOfList r detached with
      | some p => .element p
      | none => .null

/-- The `textContent` property of the node `r`. -/
def textContent (document detached : List Node) (r : Ref) : String :=
  match findList r (document ++ detached) with
  | some n => n.textContent
  | none => ""

/-- Source lines 29-30: the status element, empty. -/
def copyStatus (n : Nat) : Node :=
  (createElement n "span").setClassName "copy-status"

/-- Source lines 32-35: the button, with the text as `data-clipboard-text` and the status
element as child. -/
def copyButton (n : Nat) (text : String) : Node :=
  (((createElement (n + 1) "button").setClassName "btn-clipboard btn btn-link").setAttribute
    "data-clipboard-text" text).appendChild (copyStatus n)

/-- Source lines 37-39: the wrapper, with the button as child; `n` is the number of elements
created before. -/
def copyWrapper (n : Nat) (text : String) : Node :=
  ((createElement (n + 2) "div").setClassName "doks-clipboard").appendChild (copyButton n text)

/-- The call `parent.insertBefore(wrapper, pre)` on a state: it acts on the tree that holds
`parent`. -/
def State.insertBefore (st : State) (block : Ref) (wrapper : Node) (parent pre : Ref) : State :=
  { st with
      document := insertBeforeList parent wrapper pre st.document
      detached := insertBeforeList parent wrapper pre st.detached
      trace := st.trace ++ [Event.inserted block wrapper parent pre] }

/-- The engine's write to a block on a state: the old children of the block leave their tree. -/
def State.write (st : State) (block : Ref) (className : String) (html : List Markup) : State :=
  { st with
      document := rewriteList block className (toNodes html) st.document
      detached := rewriteList block className (toNodes html) st.detached
        ++ removedList block st.document ++ removedList block st.detached }

/-- The call `hljs.highlightBlock(block)` on a state. -/
def highlightBlock (hl : Highlighter) (st : State) (block : Ref) : State × Option Failure :=
  let called := { st with trace := st.trace ++ [Event.highlighted block] }
  match hl st.document st.detached block with
  | .threw => (called, some .highlighterError)
  | .untouched => (called, none)
  | .rewritten className html => (called.write block className html, none)

/-- The body of the `forEach` callback for one block: the wrapper is built from fresh elements
and the block's text, `pre` is the block's parent, the wrapper goes before `pre` into the parent
of `pre`, then the block is highlighted. A property read on `null` is a `TypeError`; the
document node refuses a second element child. -/
def decorateBlock (hl : Highlighter) (st : State) (block : Ref) : State × Option Failure :=
  let wrapper := copyWrapper st.created (textContent st.document st.detached block)
  let made := { st with created := st.created + 3 }
  match parentNode st.document st.detached block with
  | .null => (made, some .typeError)
  | .document => (made, some .typeError)
  | .element pre =>
    match parentNode st.document st.detached pre with
    | .null => (made, some .typeError)
    | .document => (made, some .hierarchyRequestError)
    | .element parent => highlightBlock hl (made.insertBefore block wrapper parent pre) block

/-- The loop `NodeList.forEach`: the callback runs on each entry in turn; an exception ends the
loop. -/
def forEach (callback : State → Ref → State × Option Failure) :
    State → List Ref → State × Option Failure
  | st, [] => (st, none)
  | st, block :: rest =>
    match callback st block with
    | (st', none) => forEach callback st' rest
    | (st', some e) => (st', some e)

/-- The `DOMContentLoaded` handler run on a parsed page. -/
def onDOMContentLoaded (hl : Highlighter) (page : List Node) : State × Option Failure :=
  forEach (decorateBlock hl) ⟨page, [], 0, []⟩ (querySelectorAll page)

/-- A highlighter for the examples that throws at every call, as a missing or misconfigured
engine does. -/
def throwingHighlighter : Highlighter := fun _ _ _ => .threw

/-- A highlighter for the examples: it skips a block of class `nohighlight` and otherwise
writes the block's text back as one text node, adding `hljs` to the class. -/
def plainHighlighter : Highlighter := fun document detached block =>
  match findList block (document ++ detached) with
  | some n =>
    if n.className = "nohighlight" then .untouched
    else .rewritten (n.className ++ " hljs") [.text n.textContent]
  | none => .untouched

/-! ## Vocabulary of the statements -/

/-- Whether a node is a wrapper of the script: a `div` of class `doks-clipboard` that the
script created. -/
def Node.isWrapper (n : Node) : Bool :=
  n.ref.isScript && decide (n.localName = "div") && decide (n.className = "doks-clipboard")

/-- The wrappers the run has put into a tree, in document order. -/
def wrapperNodes (nodes : List Node) : List Node :=
  (subtreesList nodes).filter Node.isWrapper

/-- The blocks the highlighter was called on, in order of the calls. -/
def highlighterCalls : List Event → List Ref
  | [] => []
  | .highlighted b :: rest => b :: highlighterCalls rest
  | .inserted _ _ _ _ :: rest => highlighterCalls rest

/-- The blocks a wrapper was inserted for, in order of insertion. -/
def insertedFor : List Event → List Ref
  | [] => []
  | .inserted b _ _ _ :: rest => b :: insertedFor rest
  | .highlighted _ :: rest => insertedFor rest

/-- The wrappers inserted, in order of insertion. -/
def insertedWrappers : List Event → List Node
  | [] => []
  | .inserted _ w _ _ :: rest => w :: insertedWrappers rest
  | .highlighted _ :: rest => insertedWrappers rest

/-- The shape of a step, without the nodes: `(block, true)` for an insertion, `(block, false)`
for a call of the highlighter. -/
def Event.shape : Event → Ref × Bool
  | .inserted b _ _ _ => (b, true)
  | .highlighted b => (b, false)

/-- The references of the subtree of the node `r` in a page. -/
def subtreeRefs (page : List Node) (r : Ref) : List Ref :=
  match findList r page with
  | some n => n.refs
  | none => []

/-- A parsed page: every node is a page node and no two nodes are the same object. -/
def WellFormed (page : List Node) : Prop :=
  (refsList page).Nodup ∧ ∀ r ∈ refsList page, r.isPage = true

instance (page : List Node) : Decidable (WellFormed page) := by
  unfold WellFormed; infer_instance

/-- No element matching `pre code` lies inside another one. -/
def NoNesting (page : List Node) : Prop :=
  ∀ b ∈ querySelectorAll page, ∀ c ∈ querySelectorAll page, b ≠ c → c ∉ subtreeRefs page b

instance (page : List Node) : Decidable (NoNesting page) := by
  unfold NoNesting; infer_instance

/-- The parent of a node and the parent of that parent, when both are elements. -/
def elementParents (document detached : List Node) (r : Ref) : Option (Ref × Ref) :=
  match parentNode document detached r with
  | .element pre =>
    match parentNode document detached pre with
    | .element parent => some (pre, parent)
    | _ => none
  | _ => none

/-- Every element matching `pre code` has a parent whose own parent is an element, so that it
accepts a new child. -/
def ParentsAccept (page : List Node) : Prop :=
  ∀ b ∈ querySelectorAll page, (elementParents page [] b).isSome = true

instance (page : List Node) : Decidable (ParentsAccept page) := by
  unfold ParentsAccept; infer_instance

mutual
/-- A subtree without the nodes the script created. -/
def Node.withoutScript : Node → Node
  | .element r t c a kids => .element r t c a (withoutScriptList kids)
  | .text r d => .text r d
def withoutScriptList : List Node → List Node
  | [] => []
  | n :: ns =>
    if n.ref.isScript then withoutScriptList ns else n.withoutScript :: withoutScriptList ns
end

mutual
/-- A subtree with the class and the contents of the listed blocks blanked: what the
highlighter may change is left out of account. -/
def Node.blank (blocks : List Ref) : Node → Node
  | .element r t c a kids =>
    if r ∈ blocks then .element r t "" a [] else .element r t c a (blankList blocks kids)
  | .text r d => .text r d
def blankList (blocks : List Ref) : List Node → List Node
  | [] => []
  | n :: ns => n.blank blocks :: blankList blocks ns
end

/-- The number of wrappers inside the node `r` of a tree. -/
def wrappersInside (nodes : List Node) (r : Ref) : Nat :=
  match findList r nodes with
  | some n => (wrapperNodes n.childNodes).length
  | none => 0

/-- The parents, in the page, of the listed nodes. -/
def parentsOf (page : List Node) (nodes : List Ref) : List Ref :=
  nodes.filterMap (fun b => parentOfList b page)

/-- The references of the subtree of the parent of the node `r` in a page. -/
def parentSubtreeRefs (page : List Node) (r : Ref) : List Ref :=
  match parentOfList r page with
  | some pp => subtreeRefs page pp
  | none => []

/-- Every element matching `pre code` is the only one inside its parent element. -/
def OneBlockPerParent (page : List Node) : Prop :=
  ∀ b ∈ querySelectorAll page, ∀ c ∈ querySelectorAll page, b ≠ c →
    c ∉ parentSubtreeRefs page b

instance (page : List Node) : Decidable (OneBlockPerParent page) := by
  unfold OneBlockPerParent; infer_instance

/-- Whether `a` comes right before `b` in a list of references. -/
def adjacent (a b : Ref) : List Ref → Bool
  | x :: y :: rest => (decide (x = a) && decide (y = b)) || adjacent a b (y :: rest)
  | _ => false

/-- Whether the node `a` is the previous sibling of the node `b` somewhere in the trees. -/
def isPreviousSibling (nodes : List Node) (a b : Ref) : Bool :=
  (subtreesList nodes).any (fun n => adjacent a b (n.childNodes.map Node.ref))

/-! ## Example pages -/

/-- The text of the spec's sample block, a JSON object with the one member `a`. -/
def jsonText : String := "\x7b\"a\":1\x7d"

/-- The spec's sample page: a `body` with one `pre` that holds one `code` element of class
`language-json` with the text `jsonText`. -/
def jsonPage : List Node :=
  [.element (.page 0) "body" "" []
    [.element (.page 1) "pre" "" []
      [.element (.page 2) "code" "language-json" [] [.text (.page 3) jsonText]]]]

/-- The page `<body><p>no code</p></body>`. -/
def plainPage : List Node :=
  [.element (.page 0) "body" "" [] [.element (.page 1) "p" "" [] [.text (.page 2) "no code"]]]

/-- The page `<body><pre><code>a<code>b</code></code></pre></body>`. -/
def nestedPage : List Node :=
  [.element (.page 0) "body" "" []
    [.element (.page 1) "pre" "" []
      [.element (.page 2) "code" "" []
        [.text (.page 3) "a", .element (.page 4) "code" "" [] [.text (.page 5) "b"]]]]]

/-- The page `<body><pre><code>a</code><code>b</code></pre></body>`. -/
def sharedParentPage : List Node :=
  [.element (.page 0) "body" "" []
    [.element (.page 1) "pre" "" []
      [.element (.page 2) "code" "" [] [.text (.page 3) "a"],
       .element (.page 4) "code" "" [] [.text (.page 5) "b"]]]]

/-- The page `<body><pre><code> x\n</code></pre><pre><code>y  </code></pre></body>`. -/
def twoBlockPage : List Node :=
  [.element (.page 0) "body" "" []
    [.element (.page 1) "pre" "" []
      [.element (.page 2) "code" "" [] [.text (.page 3) " x\n"]],
     .element (.page 4) "pre" "" []
      [.element (.page 5) "code" "" [] [.text (.page 6) "y  "]]]]

/-- The page
`<body><pre><code class="nohighlight"><span><code>b</code></span></code></pre></body>`. -/
def unhighlightedNestedPage : List Node :=
  [.element (.page 0) "body" "" []
    [.element (.page 1) "pre" "" []
      [.element (.page 2) "code" "nohighlight" []
        [.element (.page 3) "span" "" []
          [.element (.page 4) "code" "" [] [.text (.page 5) "b"]]]]]]

/-- The page `<body><pre><span><code>a</code></span><code>b</code></pre></body>`. -/
def uncleParentPage : List Node :=
  [.element (.page 0) "body" "" []
    [.element (.page 1) "pre" "" []
      [.element (.page 2) "span" "" []
        [.element (.page 3) "code" "" [] [.text (.page 4) "a"]],
       .element (.page 5) "code" "" [] [.text (.page 6) "b"]]]]

/-- The document `<pre><code>a</code></pre>`, whose root element is the `pre`. -/
def rootPrePage : List Node :=
  [.element (.page 0) "pre" "" [] [.element (.page 1) "code" "" [] [.text (.page 2) "a"]]]

/-! ## Invariants of the run -/

/-- What holds of every state of a run on a well-formed page, `rest` being the blocks still to
be decorated: page nodes stay unique, the subtree of a block never gains a page node, each block
still to come is alive with the text it had in the page, the blocks come in document order, and
every wrapper inserted carries the text its block had in the page. -/
structure Inv0 (page : List Node) (st : State) (rest : List Ref) : Prop where
  uniq : ∀ n, (refsList (st.document ++ st.detached)).count (.page n) ≤ 1
  sub : ∀ j ∈ querySelectorAll page, ∀ t ∈ subtreesList (st.document ++ st.detached),
    t.ref = j → ∀ r ∈ t.refs, r.isPage = true → r ∈ subtreeRefs page j
  kept : ∀ j ∈ rest, ∃ t ∈ subtreesList (st.document ++ st.detached),
    t.ref = j ∧ t.textContent = textContent page [] j
  order : rest.Pairwise (fun i j => i ∉ subtreeRefs page j)
  blocks : ∀ j ∈ rest, j ∈ querySelectorAll page
  payload : ∀ b w p q, Event.inserted b w p q ∈ st.trace →
    b ∈ querySelectorAll page ∧ ∃ n, w = copyWrapper n (textContent page [] b)

/-- What holds moreover of every state of a run on a page without nested blocks: every block
is a child of the element that was its parent in the page, that element a child of the element
that was its parent, and no node the script created lies inside a block. -/
structure Inv1 (page : List Node) (st : State) : Prop where
  par : ∀ j ∈ querySelectorAll page, ∀ pp, parentOfList j page = some pp →
    ∃ t ∈ subtreesList st.document, t.ref = pp ∧ hasRoot j t.childNodes = true
  gpar : ∀ j ∈ querySelectorAll page, ∀ pp gg, parentOfList j page = some pp →
    parentOfList pp page = some gg →
    ∃ t ∈ subtreesList st.document, t.ref = gg ∧ hasRoot pp t.childNodes = true
  clean : ∀ j ∈ querySelectorAll page, ∀ t ∈ subtreesList st.document, t.ref = j →
    ∀ r ∈ refsList t.childNodes, r.isScript = false

/-- The two steps taken for a block: the insertion of its wrapper, then the call of the
highlighter. -/
def stepsFor (b : Ref) : List (Ref × Bool) :=
  [(b, true), (b, false)]

/-- What holds moreover of every state of a run that cannot fail: each block decorated so far
has one wrapper in the document, and the steps taken are the two steps of each of them, in
order. -/
structure Inv2 (page : List Node) (st : State) (rest : List Ref) : Prop where
  count : (wrapperNodes st.document).length + rest.length = (querySelectorAll page).length
  shape : st.trace.map Event.shape ++ rest.flatMap stepsFor
    = (querySelectorAll page).flatMap stepsFor

/-- What holds moreover of every state of a run that cannot fail on a page with one block per
parent: the wrapper of each block decorated so far is the previous sibling of the block's
parent, and in document order the script's nodes come in the order of their insertion, all of
them before the parents of the blocks still to be decorated. -/
structure Inv3 (page : List Node) (st : State) (rest : List Ref) : Prop where
  adj : ∀ b w g p, Event.inserted b w g p ∈ st.trace →
    b ∈ querySelectorAll page ∧ b ∉ rest ∧ parentOfList b page = some p
      ∧ w.ref.isScript = true ∧ isPreviousSibling st.document w.ref p = true
  nodup : rest.Nodup
  order : (refsList st.document).filter
      (fun r => r.isScript || decide (r ∈ parentsOf page rest))
    = (insertedWrappers st.trace).flatMap Node.refs ++ parentsOf page rest

/-! ## Trees: references and subtrees -/

@[simp] theorem Node.ref_element (r : Ref) (t c : String) (a : List (String × String))
    (k : List Node) : (Node.element r t c a k).ref = r := rfl

@[simp] theorem Node.ref_text (r : Ref) (d : String) : (Node.text r d).ref = r := rfl

@[simp] theorem Node.childNodes_element (r : Ref) (t c : String) (a : List (String × String))
    (k : List Node) : (Node.element r t c a k).childNodes = k := rfl

@[simp] theorem Node.childNodes_text (r : Ref) (d : String) : (Node.text r d).childNodes = [] :=
  rfl

theorem Node.refs_eq (n : Node) : n.refs = n.ref :: refsList n.childNodes := by
  cases n <;> simp [Node.refs, Node.ref, Node.childNodes, refsList]

theorem Node.subtrees_eq (n : Node) : n.subtrees = n :: subtreesList n.childNodes := by
  cases n <;> simp [Node.subtrees, Node.childNodes, subtreesList]

theorem refsList_append (a b : List Node) : refsList (a ++ b) = refsList a ++ refsList b := by
  induction a with
  | nil => simp [refsList]
  | cons n ns ih => simp [refsList, ih]

theorem subtreesList_append (a b : List Node) :
    subtreesList (a ++ b) = subtreesList a ++ subtreesList b := by
  induction a with
  | nil => simp [subtreesList]
  | cons n ns ih => simp [subtreesList, ih]

mutual
theorem Node.refs_eq_map : ∀ n : Node, n.refs = n.subtrees.map Node.ref
  | .element r t c a kids => by
    simp [Node.refs, Node.subtrees, Node.ref, refsList_eq_map kids]
  | .text r d => by simp [Node.refs, Node.subtrees, Node.ref]
theorem refsList_eq_map : ∀ ns : List Node, refsList ns = (subtreesList ns).map Node.ref
  | [] => by simp [refsList, subtreesList]
  | n :: ns => by
    simp [refsList, subtreesList, Node.refs_eq_map n, refsList_eq_map ns]
end

theorem Node.self_mem_subtrees (n : Node) : n ∈ n.subtrees := by
  rw [Node.subtrees_eq]; exact List.mem_cons_self _ _

theorem mem_subtreesList_of_mem {n : Node} {ns : List Node} (h : n ∈ ns) :
    n ∈ subtreesList ns := by
  induction ns with
  | nil => cases h
  | cons m ms ih =>
    simp only [subtreesList, List.mem_append]
    rcases List.mem_cons.1 h with rfl | h
    · exact Or.inl (Node.self_mem_subtrees _)
    · exact Or.inr (ih h)

theorem mem_subtreesList_iff {t : Node} {ns : List Node} :
    t ∈ subtreesList ns ↔ ∃ n ∈ ns, t ∈ n.subtrees := by
  induction ns with
  | nil => simp [subtreesList]
  | cons m ms ih => simp [subtreesList, ih]

mutual
theorem Node.subtrees_sublist : ∀ (n t : Node), t ∈ n.subtrees → t.subtrees.Sublist n.subtrees
  | .element r tg c a kids, t, h => by
    simp only [Node.subtrees, List.mem_cons] at h
    rcases h with rfl | h
    · exact List.Sublist.refl _
    · simp only [Node.subtrees]
      exact (subtreesList_sublist kids t h).trans (List.sublist_cons_self _ _)
  | .text r d, t, h => by
    simp only [Node.subtrees, List.mem_singleton] at h
    subst h; exact List.Sublist.refl _
theorem subtreesList_sublist :
    ∀ (ns : List Node) (t : Node), t ∈ subtreesList ns → t.subtrees.Sublist (subtreesList ns)
  | [], t, h => by simp [subtreesList] at h
  | n :: ns, t, h => by
    simp only [subtreesList, List.mem_append] at h ⊢
    rcases h with h | h
    · exact (Node.subtrees_sublist n t h).trans (List.sublist_append_left _ _)
    · exact (subtreesList_sublist ns t h).trans (List.sublist_append_right _ _)
end

theorem subtrees_trans {ns : List Node} {t s : Node} (ht : t ∈ subtreesList ns)
    (hs : s ∈ t.subtrees) : s ∈ subtreesList ns :=
  (subtreesList_sublist ns t ht).subset hs

theorem child_mem_subtreesList {ns : List Node} {t c : Node} (ht : t ∈ subtreesList ns)
    (hc : c ∈ t.childNodes) : c ∈ subtreesList ns := by
  apply subtrees_trans ht
  rw [Node.subtrees_eq]
  exact List.mem_cons_of_mem _ (mem_subtreesList_of_mem hc)

theorem refs_sublist {ns : List Node} {t : Node} (ht : t ∈ subtreesList ns) :
    t.refs.Sublist (refsList ns) := by
  rw [Node.refs_eq_map, refsList_eq_map]
  exact (subtreesList_sublist ns t ht).map _

theorem ref_mem_refsList {ns : List Node} {t : Node} (ht : t ∈ subtreesList ns) :
    t.ref ∈ refsList ns := by
  rw [refsList_eq_map]; exact List.mem_map_of_mem _ ht

theorem exists_subtree_of_mem_refs {ns : List Node} {r : Ref} (h : r ∈ refsList ns) :
    ∃ t ∈ subtreesList ns, t.ref = r := by
  rw [refsList_eq_map] at h
  simpa using h

/-- Two nodes of a forest with the same reference are one node, when the reference occurs
once. -/
theorem subtree_unique {ns : List Node} {t s : Node} (ht : t ∈ subtreesList ns)
    (hs : s ∈ subtreesList ns) (href : t.ref = s.ref)
    (hc : (refsList ns).count t.ref ≤ 1) : t = s := by
  rw [refsList_eq_map] at hc
  generalize subtreesList ns = l at ht hs hc
  induction l with
  | nil => cases ht
  | cons x xs ih =>
    rw [List.map_cons, List.count_cons] at hc
    rcases List.mem_cons.1 ht with rfl | ht'
    · rcases List.mem_cons.1 hs with rfl | hs'
      · rfl
      · have : 0 < (xs.map Node.ref).count t.ref :=
          List.count_pos_iff.2 (href ▸ List.mem_map_of_mem _ hs')
        simp at hc; omega
    · rcases List.mem_cons.1 hs with rfl | hs'
      · have : 0 < (xs.map Node.ref).count t.ref :=
          List.count_pos_iff.2 (List.mem_map_of_mem _ ht')
        have hb : (s.ref == t.ref) = true := by simp [href]
        rw [hb] at hc; simp at hc; omega
      · exact ih ht' hs' (by omega)

/-! ## Lookups: `find`, `parentOf` -/

theorem hasRoot_iff {r : Ref} {ns : List Node} :
    hasRoot r ns = true ↔ ∃ n ∈ ns, n.ref = r := by
  simp [hasRoot]

theorem hasRoot_eq_false_iff {r : Ref} {ns : List Node} :
    hasRoot r ns = false ↔ ∀ n ∈ ns, n.ref ≠ r := by
  simp [hasRoot]

theorem hasRoot_append (r : Ref) (a b : List Node) :
    hasRoot r (a ++ b) = (hasRoot r a || hasRoot r b) := by
  simp [hasRoot]

theorem findList_append (r : Ref) (a b : List Node) :
    findList r (a ++ b) = match findList r a with
      | some m => some m
      | none => findList r b := by
  induction a with
  | nil => simp [findList]
  | cons n ns ih =>
    simp only [List.cons_append, findList]
    cases Node.find r n with
    | some m => rfl
    | none => simpa using ih

mutual
theorem Node.find_sound (r : Ref) : ∀ (n t : Node), n.find r = some t → t ∈ n.subtrees ∧ t.ref = r
  | .element r' tg c a kids, t, h => by
    simp only [Node.find] at h
    split at h
    · next hr =>
      cases h
      exact ⟨Node.self_mem_subtrees _, hr⟩
    · have := findList_sound r kids t h
      simp only [Node.subtrees, List.mem_cons]
      exact ⟨Or.inr this.1, this.2⟩
  | .text r' d, t, h => by
    simp only [Node.find] at h
    split at h
    · next hr =>
      cases h
      exact ⟨Node.self_mem_subtrees _, hr⟩
    · cases h
theorem findList_sound (r : Ref) :
    ∀ (ns : List Node) (t : Node), findList r ns = some t → t ∈ subtreesList ns ∧ t.ref = r
  | [], t, h => by simp [findList] at h
  | n :: ns, t, h => by
    simp only [findList] at h
    simp only [subtreesList, List.mem_append]
    cases hn : Node.find r n with
    | some m =>
      rw [hn] at h
      have hm : m = t := Option.some.inj h
      subst hm
      have := Node.find_sound r n m hn
      exact ⟨Or.inl this.1, this.2⟩
    | none =>
      rw [hn] at h
      have := findList_sound r ns t h
      exact ⟨Or.inr this.1, this.2⟩
end

mutual
theorem Node.find_none (r : Ref) : ∀ (n : Node), n.find r = none → r ∉ n.refs
  | .element r' tg c a kids, h => by
    simp only [Node.find] at h
    split at h
    · cases h
    · next hr =>
      have := findList_none r kids h
      simp only [Node.refs, List.mem_cons, not_or]
      exact ⟨fun e => hr e.symm, this⟩
  | .text r' d, h => by
    simp only [Node.find] at h
    split at h
    · cases h
    · next hr =>
      simp only [Node.refs, List.mem_singleton]
      exact fun e => hr e.symm
theorem findList_none (r : Ref) : ∀ (ns : List Node), findList r ns = none → r ∉ refsList ns
  | [], _ => by simp [refsList]
  | n :: ns, h => by
    simp only [findList] at h
    cases hn : Node.find r n with
    | some m => rw [hn] at h; cases h
    | none =>
      rw [hn] at h
      simp only [refsList, List.mem_append, not_or]
      exact ⟨Node.find_none r n hn, findList_none r ns h⟩
end

/-- The lookup of a reference that occurs once gives the node that carries it. -/
theorem findList_eq_of_mem {ns : List Node} {t : Node} (ht : t ∈ subtreesList ns)
    (hc : (refsList ns).count t.ref ≤ 1) : findList t.ref ns = some t := by
  cases h : findList t.ref ns with
  | none => exact absurd (ref_mem_refsList ht) (findList_none _ _ h)
  | some s =>
    have hs := findList_sound _ _ _ h
    rw [subtree_unique ht hs.1 hs.2.symm hc]

mutual
theorem Node.parentOf_sound (r : Ref) : ∀ (n : Node) (p : Ref), n.parentOf r = some p →
    ∃ t ∈ n.subtrees, t.ref = p ∧ hasRoot r t.childNodes = true
  | .element r' tg c a kids, p, h => by
    simp only [Node.parentOf] at h
    split at h
    · next hr =>
      cases h
      exact ⟨_, Node.self_mem_subtrees _, rfl, hr⟩
    · obtain ⟨t, ht, h1, h2⟩ := parentOfList_sound r kids p h
      exact ⟨t, by simp only [Node.subtrees, List.mem_cons]; exact Or.inr ht, h1, h2⟩
  | .text r' d, p, h => by simp [Node.parentOf] at h
theorem parentOfList_sound (r : Ref) : ∀ (ns : List Node) (p : Ref), parentOfList r ns = some p →
    ∃ t ∈ subtreesList ns, t.ref = p ∧ hasRoot r t.childNodes = true
  | [], p, h => by simp [parentOfList] at h
  | n :: ns, p, h => by
    simp only [parentOfList] at h
    simp only [subtreesList, List.mem_append]
    cases hn : Node.parentOf r n with
    | some m =>
      rw [hn] at h
      have hm : m = p := Option.some.inj h
      subst hm
      obtain ⟨t, ht, h1, h2⟩ := Node.parentOf_sound r n m hn
      exact ⟨t, Or.inl ht, h1, h2⟩
    | none =>
      rw [hn] at h
      obtain ⟨t, ht, h1, h2⟩ := parentOfList_sound r ns p h
      exact ⟨t, Or.inr ht, h1, h2⟩
end

mutual
theorem Node.parentOf_none (r : Ref) : ∀ (n : Node), n.parentOf r = none →
    ∀ t ∈ n.subtrees, hasRoot r t.childNodes = false
  | .element r' tg c a kids, h => by
    simp only [Node.parentOf] at h
    split at h
    · cases h
    · next hr =>
      intro t ht
      simp only [Node.subtrees, List.mem_cons] at ht
      rcases ht with rfl | ht
      · simpa using hr
      · exact parentOfList_none r kids h t ht
  | .text r' d, _ => by
    intro t ht
    simp only [Node.subtrees, List.mem_singleton] at ht
    subst ht
    simp [hasRoot]
theorem parentOfList_none (r : Ref) : ∀ (ns : List Node), parentOfList r ns = none →
    ∀ t ∈ subtreesList ns, hasRoot r t.childNodes = false
  | [], _ => by simp [subtreesList]
  | n :: ns, h => by
    simp only [parentOfList] at h
    cases hn : Node.parentOf r n with
    | some m => rw [hn] at h; cases h
    | none =>
      rw [hn] at h
      intro t ht
      simp only [subtreesList, List.mem_append] at ht
      rcases ht with ht | ht
      · exact Node.parentOf_none r n hn t ht
      · exact parentOfList_none r ns h t ht
end

theorem parentOfList_append (r : Ref) (a b : List Node) :
    parentOfList r (a ++ b) = match parentOfList r a with
      | some m => some m
      | none => parentOfList r b := by
  induction a with
  | nil => simp [parentOfList]
  | cons n ns ih =>
    simp only [List.cons_append, parentOfList]
    cases Node.parentOf r n with
    | some m => rfl
    | none => simpa using ih

/-! ### Counting the places where a reference occurs -/

theorem one_le_count_of_hasRoot {r : Ref} {ns : List Node} (h : hasRoot r ns = true) :
    1 ≤ (ns.map Node.ref).count r := by
  obtain ⟨n, hn, hr⟩ := hasRoot_iff.1 h
  exact List.count_pos_iff.2 (hr ▸ List.mem_map_of_mem _ hn)

mutual
theorem Node.parents_count (r : Ref) : ∀ n : Node,
    (n.subtrees.filter (fun t => hasRoot r t.childNodes)).length + ([n.ref].count r)
      ≤ n.refs.count r
  | .element r' tg c a kids => by
    have ih := parentsList_count r kids
    simp only [Node.subtrees, Node.refs, Node.ref_element, List.filter_cons,
      Node.childNodes_element, List.count_cons, List.count_nil]
    by_cases hk : hasRoot r kids = true
    · have := one_le_count_of_hasRoot hk
      simp only [hk, if_true, List.length_cons]
      split <;> omega
    · simp only [hk, Bool.false_eq_true, if_false]
      split <;> omega
  | .text r' d => by
    simp [Node.subtrees, Node.refs, hasRoot, List.filter_cons]
theorem parentsList_count (r : Ref) : ∀ ns : List Node,
    ((subtreesList ns).filter (fun t => hasRoot r t.childNodes)).length
      + (ns.map Node.ref).count r ≤ (refsList ns).count r
  | [] => by simp [subtreesList, refsList]
  | n :: ns => by
    have h1 := Node.parents_count r n
    have h2 := parentsList_count r ns
    simp only [subtreesList, refsList, List.filter_append, List.length_append, List.map_cons,
      List.count_append, List.count_cons, List.count_nil] at h1 h2 ⊢
    omega
end

theorem eq_of_mem_filter_of_length_le_one {α : Type} {q : α → Bool} {l : List α} {a b : α}
    (hl : (l.filter q).length ≤ 1) (ha : a ∈ l) (hqa : q a = true) (hb : b ∈ l)
    (hqb : q b = true) : a = b := by
  have ha' : a ∈ l.filter q := List.mem_filter.2 ⟨ha, hqa⟩
  have hb' : b ∈ l.filter q := List.mem_filter.2 ⟨hb, hqb⟩
  generalize l.filter q = m at hl ha' hb'
  match m, hl, ha', hb' with
  | [x], _, ha', hb' =>
    rw [List.mem_singleton.1 ha', List.mem_singleton.1 hb']
  | _ :: _ :: _, hl, _, _ => simp at hl

/-- An element with a child that occurs once is the only element with that child. -/
theorem parent_unique {ns : List Node} {r : Ref} {t s : Node}
    (hc : (refsList ns).count r ≤ 1) (ht : t ∈ subtreesList ns)
    (hrt : hasRoot r t.childNodes = true) (hs : s ∈ subtreesList ns)
    (hrs : hasRoot r s.childNodes = true) : t = s := by
  have := parentsList_count r ns
  exact eq_of_mem_filter_of_length_le_one (q := fun t => hasRoot r t.childNodes)
    (by omega) ht hrt hs hrs

/-- A reference that occurs once, as a child, is not the reference of a root. -/
theorem not_hasRoot_of_child {ns : List Node} {r : Ref} {t : Node}
    (hc : (refsList ns).count r ≤ 1) (ht : t ∈ subtreesList ns)
    (hrt : hasRoot r t.childNodes = true) : hasRoot r ns = false := by
  have h := parentsList_count r ns
  have h1 : 1 ≤ ((subtreesList ns).filter (fun t => hasRoot r t.childNodes)).length :=
    List.length_pos_of_mem (List.mem_filter.2 ⟨ht, hrt⟩)
  cases hr : hasRoot r ns with
  | false => rfl
  | true => have := one_le_count_of_hasRoot hr; omega

theorem parentOfList_eq {ns : List Node} {r : Ref} {t : Node}
    (hc : (refsList ns).count r ≤ 1) (ht : t ∈ subtreesList ns)
    (hrt : hasRoot r t.childNodes = true) : parentOfList r ns = some t.ref := by
  cases h : parentOfList r ns with
  | none => rw [parentOfList_none r ns h t ht] at hrt; cases hrt
  | some p =>
    obtain ⟨s, hs, hp, hrs⟩ := parentOfList_sound r ns p h
    rw [parent_unique hc ht hrt hs hrs, hp]

/-- The `parentNode` of a node that occurs once in the document, as a child of `t`. -/
theorem parentNode_eq {document detached : List Node} {r : Ref} {t : Node}
    (hc : (refsList document).count r ≤ 1) (ht : t ∈ subtreesList document)
    (hrt : hasRoot r t.childNodes = true) :
    parentNode document detached r = .element t.ref := by
  simp [parentNode, not_hasRoot_of_child hc ht hrt, parentOfList_eq hc ht hrt]

/-! ## `insertBefore` -/

section insert
variable (g : Ref) (w : Node) (p : Ref)

theorem insertBeforeList_append (a b : List Node) :
    insertBeforeList g w p (a ++ b) = insertBeforeList g w p a ++ insertBeforeList g w p b := by
  induction a with
  | nil => simp [insertBeforeList]
  | cons n ns ih => simp [insertBeforeList, ih]

theorem Node.insertBefore_ref (n : Node) : (Node.insertBefore g w p n).ref = n.ref := by
  cases n with
  | element r t c a kids => simp only [Node.insertBefore]; split <;> rfl
  | text r d => rfl

theorem insertBeforeList_map_ref (ns : List Node) :
    (insertBeforeList g w p ns).map Node.ref = ns.map Node.ref := by
  induction ns with
  | nil => simp [insertBeforeList]
  | cons n ns ih => simp [insertBeforeList, ih, Node.insertBefore_ref]

theorem hasRoot_insertBeforeList (r : Ref) (ns : List Node) :
    hasRoot r (insertBeforeList g w p ns) = hasRoot r ns := by
  have h := insertBeforeList_map_ref g w p ns
  have e : ∀ l : List Node, hasRoot r l = (l.map Node.ref).any (fun x => decide (x = r)) := by
    intro l; induction l with
    | nil => rfl
    | cons x xs ih => simp only [hasRoot, List.any_cons, List.map_cons] at ih ⊢; rw [ih]
  rw [e, e, h]

theorem mem_insertBeforeList {n : Node} {ns : List Node} (h : n ∈ ns) :
    Node.insertBefore g w p n ∈ insertBeforeList g w p ns := by
  induction ns with
  | nil => cases h
  | cons m ms ih =>
    simp only [insertBeforeList, List.mem_cons]
    rcases List.mem_cons.1 h with rfl | h
    · exact Or.inl rfl
    · exact Or.inr (ih h)

theorem mem_insertAt {n : Node} {ns : List Node} (h : n ∈ ns) : n ∈ insertAt w p ns := by
  induction ns with
  | nil => cases h
  | cons m ms ih =>
    simp only [insertAt]
    split
    · exact List.mem_cons_of_mem _ h
    · rcases List.mem_cons.1 h with rfl | h
      · exact List.mem_cons_self _ _
      · exact List.mem_cons_of_mem _ (ih h)

theorem mem_insertAt_iff {n : Node} {ns : List Node} :
    n ∈ insertAt w p ns ↔ (n = w ∧ hasRoot p ns = true) ∨ n ∈ ns := by
  induction ns with
  | nil => simp [insertAt, hasRoot]
  | cons m ms ih =>
    simp only [insertAt]
    split
    · next hm => simp [hasRoot, hm]
    · next hm =>
      simp only [List.mem_cons, ih]
      have : hasRoot p (m :: ms) = hasRoot p ms := by simp [hasRoot, hm]
      rw [this]
      tauto

theorem insertAt_of_not_hasRoot {ns : List Node} (h : hasRoot p ns = false) :
    insertAt w p ns = ns := by
  induction ns with
  | nil => rfl
  | cons m ms ih =>
    simp only [hasRoot, List.any_cons, Bool.or_eq_false_iff, decide_eq_false_iff_not] at h
    simp only [insertAt, h.1, if_false]
    rw [ih (by simpa [hasRoot] using h.2)]

theorem refsList_insertAt (ns : List Node) :
    ∃ a b, refsList ns = a ++ b ∧
      refsList (insertAt w p ns) = a ++ (if hasRoot p ns then w.refs else []) ++ b := by
  induction ns with
  | nil => exact ⟨[], [], by simp [refsList, insertAt, hasRoot]⟩
  | cons m ms ih =>
    simp only [insertAt]
    split
    · next hm =>
      refine ⟨[], refsList (m :: ms), by simp, ?_⟩
      simp [hasRoot, hm, refsList]
    · next hm =>
      obtain ⟨a, b, h1, h2⟩ := ih
      refine ⟨m.refs ++ a, b, by simp [refsList, h1], ?_⟩
      have : hasRoot p (m :: ms) = hasRoot p ms := by simp [hasRoot, hm]
      simp [refsList, h2, this]

theorem subtreesList_insertAt (ns : List Node) :
    ∃ a b, subtreesList ns = a ++ b ∧
      subtreesList (insertAt w p ns) = a ++ (if hasRoot p ns then w.subtrees else []) ++ b := by
  induction ns with
  | nil => exact ⟨[], [], by simp [subtreesList, insertAt, hasRoot]⟩
  | cons m ms ih =>
    simp only [insertAt]
    split
    · next hm =>
      refine ⟨[], subtreesList (m :: ms), by simp, ?_⟩
      simp [hasRoot, hm, subtreesList]
    · next hm =>
      obtain ⟨a, b, h1, h2⟩ := ih
      refine ⟨m.subtrees ++ a, b, by simp [subtreesList, h1], ?_⟩
      have : hasRoot p (m :: ms) = hasRoot p ms := by simp [hasRoot, hm]
      simp [subtreesList, h2, this]

theorem Node.insertBefore_childNodes (n : Node) :
    (Node.insertBefore g w p n).childNodes =
      if n.ref = g then insertAt w p (insertBeforeList g w p n.childNodes)
      else insertBeforeList g w p n.childNodes := by
  cases n with
  | element r t c a kids => simp only [Node.insertBefore, Node.ref_element]; split <;> simp
  | text r d => simp [Node.insertBefore, insertBeforeList, insertAt]

mutual
theorem Node.insertBefore_mem_subtrees : ∀ (n t : Node), t ∈ n.subtrees →
    Node.insertBefore g w p t ∈ (Node.insertBefore g w p n).subtrees
  | .element r tg c a kids, t, h => by
    simp only [Node.subtrees, List.mem_cons] at h
    rcases h with rfl | h
    · exact Node.self_mem_subtrees _
    · have ih := insertBeforeList_mem_subtrees kids t h
      rw [Node.subtrees_eq, Node.insertBefore_childNodes]
      apply List.mem_cons_of_mem
      simp only [Node.childNodes_element]
      split
      · obtain ⟨a, b, h1, h2⟩ := subtreesList_insertAt w p (insertBeforeList g w p kids)
        rw [h2]; rw [h1] at ih
        simp only [List.mem_append] at ih ⊢
        tauto
      · exact ih
  | .text r d, t, h => by
    simp only [Node.subtrees, List.mem_singleton] at h
    subst h
    exact Node.self_mem_subtrees _
theorem insertBeforeList_mem_subtrees : ∀ (ns : List Node) (t : Node), t ∈ subtreesList ns →
    Node.insertBefore g w p t ∈ subtreesList (insertBeforeList g w p ns)
  | [], t, h => by simp [subtreesList] at h
  | n :: ns, t, h => by
    simp only [subtreesList, insertBeforeList, List.mem_append] at h ⊢
    rcases h with h | h
    · exact Or.inl (Node.insertBefore_mem_subtrees n t h)
    · exact Or.inr (insertBeforeList_mem_subtrees ns t h)
end

mutual
theorem Node.subtrees_insertBefore : ∀ (n t : Node),
    t ∈ (Node.insertBefore g w p n).subtrees →
      t ∈ w.subtrees ∨ ∃ s ∈ n.subtrees, t = Node.insertBefore g w p s
  | .element r tg c a kids, t, h => by
    rw [Node.subtrees_eq, Node.insertBefore_childNodes] at h
    rcases List.mem_cons.1 h with rfl | h
    · exact Or.inr ⟨_, Node.self_mem_subtrees _, rfl⟩
    · have key : t ∈ w.subtrees ∨ t ∈ subtreesList (insertBeforeList g w p kids) := by
        simp only [Node.childNodes_element] at h
        split at h
        · obtain ⟨a, b, h1, h2⟩ := subtreesList_insertAt w p (insertBeforeList g w p kids)
          rw [h2] at h; rw [h1]
          simp only [List.mem_append] at h ⊢
          rcases h with (h | h) | h
          · exact Or.inr (Or.inl h)
          · split at h
            · exact Or.inl h
            · cases h
          · exact Or.inr (Or.inr h)
        · exact Or.inr h
      rcases key with h | h
      · exact Or.inl h
      · rcases subtreesList_insertBefore kids t h with h | ⟨s, hs, e⟩
        · exact Or.inl h
        · exact Or.inr ⟨s, by simp only [Node.subtrees, List.mem_cons]; exact Or.inr hs, e⟩
  | .text r d, t, h => by
    simp only [Node.insertBefore, Node.subtrees, List.mem_singleton] at h
    subst h
    exact Or.inr ⟨_, Node.self_mem_subtrees _, rfl⟩
theorem subtreesList_insertBefore : ∀ (ns : List Node) (t : Node),
    t ∈ subtreesList (insertBeforeList g w p ns) →
      t ∈ w.subtrees ∨ ∃ s ∈ subtreesList ns, t = Node.insertBefore g w p s
  | [], t, h => by simp [subtreesList, insertBeforeList] at h
  | n :: ns, t, h => by
    simp only [subtreesList, insertBeforeList, List.mem_append] at h ⊢
    rcases h with h | h
    · rcases Node.subtrees_insertBefore n t h with h | ⟨s, hs, e⟩
      · exact Or.inl h
      · exact Or.inr ⟨s, Or.inl hs, e⟩
    · rcases subtreesList_insertBefore ns t h with h | ⟨s, hs, e⟩
      · exact Or.inl h
      · exact Or.inr ⟨s, Or.inr hs, e⟩
end

mutual
/-- References the wrapper does not carry are listed as before. -/
theorem Node.filter_refs_insertBefore (q : Ref → Bool) (hq : ∀ r ∈ w.refs, q r = false) :
    ∀ n : Node, (Node.insertBefore g w p n).refs.filter q = n.refs.filter q
  | .element r tg c a kids => by
    have ih := filter_refsList_insertBefore q hq kids
    rw [Node.refs_eq, Node.refs_eq, Node.insertBefore_childNodes, Node.insertBefore_ref]
    simp only [Node.childNodes_element, Node.ref_element, List.filter_cons]
    have key : (refsList (if r = g then insertAt w p (insertBeforeList g w p kids)
        else insertBeforeList g w p kids)).filter q = (refsList kids).filter q := by
      split
      · obtain ⟨a, b, h1, h2⟩ := refsList_insertAt w p (insertBeforeList g w p kids)
        rw [h2, ← ih, h1]
        have : (if hasRoot p (insertBeforeList g w p kids) then w.refs else []).filter q = [] := by
          split
          · exact List.filter_eq_nil_iff.2 (fun r hr => by simp [hq r hr])
          · rfl
        simp [List.filter_append, this]
      · exact ih
    rw [key]
  | .text r d => by simp [Node.insertBefore]
theorem filter_refsList_insertBefore (q : Ref → Bool) (hq : ∀ r ∈ w.refs, q r = false) :
    ∀ ns : List Node, (refsList (insertBeforeList g w p ns)).filter q = (refsList ns).filter q
  | [] => by simp [insertBeforeList]
  | n :: ns => by
    simp only [insertBeforeList, refsList, List.filter_append,
      Node.filter_refs_insertBefore q hq n, filter_refsList_insertBefore q hq ns]
end

theorem count_refsList_insertBefore {r : Ref} (hr : r ∉ w.refs) (ns : List Node) :
    (refsList (insertBeforeList g w p ns)).count r = (refsList ns).count r := by
  have h := filter_refsList_insertBefore g w p (fun x => x == r)
    (fun x hx => by
      simp only [beq_eq_false_iff_ne, ne_eq]
      rintro rfl; exact hr hx) ns
  simp only [List.count, List.countP_eq_length_filter, h]

theorem count_refs_insertBefore {r : Ref} (hr : r ∉ w.refs) (n : Node) :
    (Node.insertBefore g w p n).refs.count r = n.refs.count r := by
  have h := Node.filter_refs_insertBefore g w p (fun x => x == r)
    (fun x hx => by
      simp only [beq_eq_false_iff_ne, ne_eq]
      rintro rfl; exact hr hx) n
  simp only [List.count, List.countP_eq_length_filter, h]

theorem textContentList_insertAt (hw : w.textContent = "") (ns : List Node) :
    textContentList (insertAt w p ns) = textContentList ns := by
  induction ns with
  | nil => rfl
  | cons m ms ih =>
    simp only [insertAt]
    split
    · simp [textContentList, hw]
    · simp [textContentList, ih]

mutual
/-- A node without text, inserted anywhere, leaves every `textContent` as it was. -/
theorem Node.textContent_insertBefore (hw : w.textContent = "") :
    ∀ n : Node, (Node.insertBefore g w p n).textContent = n.textContent
  | .element r tg c a kids => by
    have ih := textContentList_insertBefore hw kids
    simp only [Node.insertBefore]
    split
    · simp only [Node.textContent, textContentList_insertAt w p hw, ih]
    · simp only [Node.textContent, ih]
  | .text r d => rfl
theorem textContentList_insertBefore (hw : w.textContent = "") :
    ∀ ns : List Node, textContentList (insertBeforeList g w p ns) = textContentList ns
  | [] => rfl
  | n :: ns => by
    simp only [insertBeforeList, textContentList, Node.textContent_insertBefore hw n,
      textContentList_insertBefore hw ns]
end

mutual
/-- A tree without an element `g` that has the child `p` is left as it is. -/
theorem Node.insertBefore_eq_self : ∀ n : Node,
    (∀ s ∈ n.subtrees, s.ref = g → hasRoot p s.childNodes = false) →
      Node.insertBefore g w p n = n
  | .element r tg c a kids, h => by
    have ih := insertBeforeList_eq_self kids (fun s hs =>
      h s (by simp only [Node.subtrees, List.mem_cons]; exact Or.inr hs))
    simp only [Node.insertBefore, ih]
    split
    · next hr =>
      have := h _ (Node.self_mem_subtrees _) hr
      rw [insertAt_of_not_hasRoot w p (by simpa using this)]
    · rfl
  | .text r d, _ => rfl
theorem insertBeforeList_eq_self : ∀ ns : List Node,
    (∀ s ∈ subtreesList ns, s.ref = g → hasRoot p s.childNodes = false) →
      insertBeforeList g w p ns = ns
  | [], _ => rfl
  | n :: ns, h => by
    simp only [insertBeforeList]
    rw [Node.insertBefore_eq_self n (fun s hs => h s (by
        simp only [subtreesList, List.mem_append]; exact Or.inl hs)),
      insertBeforeList_eq_self ns (fun s hs => h s (by
        simp only [subtreesList, List.mem_append]; exact Or.inr hs))]
end

end insert

/-! ## The engine's write: `rewrite` and `removed` -/

mutual
theorem Markup.toNode_refs : ∀ m : Markup, ∀ r ∈ m.toNode.refs, r = Ref.engine
  | .element t c kids => by
    intro r hr
    simp only [Markup.toNode, Node.refs, List.mem_cons] at hr
    rcases hr with rfl | hr
    · rfl
    · exact toNodes_refs kids r hr
  | .text d => by
    intro r hr
    simpa [Markup.toNode, Node.refs] using hr
theorem toNodes_refs : ∀ ms : List Markup, ∀ r ∈ refsList (toNodes ms), r = Ref.engine
  | [] => by simp [toNodes, refsList]
  | m :: ms => by
    intro r hr
    simp only [toNodes, refsList, List.mem_append] at hr
    rcases hr with hr | hr
    · exact Markup.toNode_refs m r hr
    · exact toNodes_refs ms r hr
end

section rewrite
variable (b : Ref) (cls : String) (new : List Node)

theorem rewriteList_append (x y : List Node) :
    rewriteList b cls new (x ++ y) = rewriteList b cls new x ++ rewriteList b cls new y := by
  induction x with
  | nil => simp [rewriteList]
  | cons n ns ih => simp [rewriteList, ih]

theorem removedList_append (x y : List Node) :
    removedList b (x ++ y) = removedList b x ++ removedList b y := by
  induction x with
  | nil => simp [removedList]
  | cons n ns ih => simp [removedList, ih]

theorem Node.rewrite_ref (n : Node) : (Node.rewrite b cls new n).ref = n.ref := by
  cases n with
  | element r t c a kids =>
    simp only [Node.rewrite]; split
    · next h => simp
    · rfl
  | text r d => rfl

theorem rewriteList_map_ref (ns : List Node) :
    (rewriteList b cls new ns).map Node.ref = ns.map Node.ref := by
  induction ns with
  | nil => simp [rewriteList]
  | cons n ns ih => simp [rewriteList, ih, Node.rewrite_ref]

theorem hasRoot_rewriteList (r : Ref) (ns : List Node) :
    hasRoot r (rewriteList b cls new ns) = hasRoot r ns := by
  induction ns with
  | nil => rfl
  | cons x xs ih =>
    simp only [hasRoot, rewriteList, List.any_cons, Node.rewrite_ref] at ih ⊢; rw [ih]

theorem mem_rewriteList {n : Node} {ns : List Node} (h : n ∈ ns) :
    Node.rewrite b cls new n ∈ rewriteList b cls new ns := by
  induction ns with
  | nil => cases h
  | cons m ms ih =>
    simp only [rewriteList, List.mem_cons]
    rcases List.mem_cons.1 h with rfl | h
    · exact Or.inl rfl
    · exact Or.inr (ih h)

theorem Node.rewrite_childNodes {n : Node} (h : n.ref ≠ b) :
    (Node.rewrite b cls new n).childNodes = rewriteList b cls new n.childNodes := by
  cases n with
  | element r t c a kids =>
    simp only [Node.ref_element] at h
    simp [Node.rewrite, h]
  | text r d => simp [Node.rewrite, rewriteList]

mutual
/-- A node of the forest is, after the write, in the forest (rewritten) or among the removed
trees (as it was). -/
theorem Node.rewrite_mem_subtrees : ∀ (n t : Node), t ∈ n.subtrees →
    Node.rewrite b cls new t ∈ (Node.rewrite b cls new n).subtrees
      ∨ t ∈ subtreesList (n.removed b)
  | .element r tg c a kids, t, h => by
    simp only [Node.subtrees, List.mem_cons] at h
    rcases h with rfl | h
    · exact Or.inl (Node.self_mem_subtrees _)
    · by_cases hr : r = b
      · right; simpa [Node.removed, hr] using h
      · rcases rewriteList_mem_subtrees kids t h with ih | ih
        · left
          simp only [Node.rewrite, hr, if_false, Node.subtrees, List.mem_cons]
          exact Or.inr ih
        · right; simpa [Node.removed, hr] using ih
  | .text r d, t, h => by
    simp only [Node.subtrees, List.mem_singleton] at h
    subst h
    exact Or.inl (Node.self_mem_subtrees _)
theorem rewriteList_mem_subtrees : ∀ (ns : List Node) (t : Node), t ∈ subtreesList ns →
    Node.rewrite b cls new t ∈ subtreesList (rewriteList b cls new ns)
      ∨ t ∈ subtreesList (removedList b ns)
  | [], t, h => by simp [subtreesList] at h
  | n :: ns, t, h => by
    simp only [subtreesList, rewriteList, removedList, subtreesList_append,
      List.mem_append] at h ⊢
    rcases h with h | h
    · rcases Node.rewrite_mem_subtrees n t h with h | h
      · exact Or.inl (Or.inl h)
      · exact Or.inr (Or.inl h)
    · rcases rewriteList_mem_subtrees ns t h with h | h
      · exact Or.inl (Or.inr h)
      · exact Or.inr (Or.inr h)
end

mutual
theorem Node.rewrite_eq_self : ∀ n : Node, b ∉ n.refs → Node.rewrite b cls new n = n
  | .element r tg c a kids, h => by
    simp only [Node.refs, List.mem_cons, not_or] at h
    have hr : ¬ r = b := fun e => h.1 e.symm
    simp only [Node.rewrite, hr, if_false, rewriteList_eq_self kids h.2]
  | .text r d, _ => rfl
theorem rewriteList_eq_self : ∀ ns : List Node, b ∉ refsList ns → rewriteList b cls new ns = ns
  | [], _ => rfl
  | n :: ns, h => by
    simp only [refsList, List.mem_append, not_or] at h
    simp only [rewriteList, Node.rewrite_eq_self n h.1, rewriteList_eq_self ns h.2]
end

mutual
theorem Node.removed_inside : ∀ (n s : Node), s ∈ n.removed b →
    ∃ t ∈ n.subtrees, t.ref = b ∧ s ∈ t.childNodes
  | .element r tg c a kids, s, h => by
    simp only [Node.removed] at h
    split at h
    · next hr => exact ⟨_, Node.self_mem_subtrees _, hr, h⟩
    · obtain ⟨t, ht, h1, h2⟩ := removedList_inside kids s h
      exact ⟨t, by simp only [Node.subtrees, List.mem_cons]; exact Or.inr ht, h1, h2⟩
  | .text r d, s, h => by simp [Node.removed] at h
theorem removedList_inside : ∀ (ns : List Node) (s : Node), s ∈ removedList b ns →
    ∃ t ∈ subtreesList ns, t.ref = b ∧ s ∈ t.childNodes
  | [], s, h => by simp [removedList] at h
  | n :: ns, s, h => by
    simp only [removedList, List.mem_append] at h
    simp only [subtreesList, List.mem_append]
    rcases h with h | h
    · obtain ⟨t, ht, h1, h2⟩ := Node.removed_inside n s h
      exact ⟨t, Or.inl ht, h1, h2⟩
    · obtain ⟨t, ht, h1, h2⟩ := removedList_inside ns s h
      exact ⟨t, Or.inr ht, h1, h2⟩
end

/-- A node of the removed trees was a node below a block element. -/
theorem subtrees_removedList_inside {ns : List Node} {s : Node}
    (h : s ∈ subtreesList (removedList b ns)) :
    ∃ t ∈ subtreesList ns, t.ref = b ∧ s ∈ subtreesList t.childNodes := by
  obtain ⟨m, hm, hs⟩ := mem_subtreesList_iff.1 h
  obtain ⟨t, ht, h1, h2⟩ := removedList_inside b ns m hm
  exact ⟨t, ht, h1, mem_subtreesList_iff.2 ⟨m, h2, hs⟩⟩

theorem subtrees_removedList_sub {ns : List Node} {s : Node}
    (h : s ∈ subtreesList (removedList b ns)) : s ∈ subtreesList ns := by
  obtain ⟨t, ht, _, hs⟩ := subtrees_removedList_inside b h
  apply subtrees_trans ht
  rw [Node.subtrees_eq]; exact List.mem_cons_of_mem _ hs

mutual
theorem Node.subtrees_rewrite : ∀ (n t : Node), t ∈ (Node.rewrite b cls new n).subtrees →
    t ∈ subtreesList new ∨ ∃ s ∈ n.subtrees, t = Node.rewrite b cls new s
  | .element r tg c a kids, t, h => by
    rw [Node.subtrees_eq] at h
    rcases List.mem_cons.1 h with rfl | h
    · exact Or.inr ⟨_, Node.self_mem_subtrees _, rfl⟩
    · by_cases hr : r = b
      · left; simpa [Node.rewrite, hr] using h
      · simp only [Node.rewrite, hr, if_false, Node.childNodes_element] at h
        rcases subtreesList_rewrite kids t h with h | ⟨s, hs, e⟩
        · exact Or.inl h
        · exact Or.inr ⟨s, by simp only [Node.subtrees, List.mem_cons]; exact Or.inr hs, e⟩
  | .text r d, t, h => by
    simp only [Node.rewrite, Node.subtrees, List.mem_singleton] at h
    subst h
    exact Or.inr ⟨_, Node.self_mem_subtrees _, rfl⟩
theorem subtreesList_rewrite : ∀ (ns : List Node) (t : Node),
    t ∈ subtreesList (rewriteList b cls new ns) →
      t ∈ subtreesList new ∨ ∃ s ∈ subtreesList ns, t = Node.rewrite b cls new s
  | [], t, h => by simp [subtreesList, rewriteList] at h
  | n :: ns, t, h => by
    simp only [subtreesList, rewriteList, List.mem_append] at h ⊢
    rcases h with h | h
    · rcases Node.subtrees_rewrite n t h with h | ⟨s, hs, e⟩
      · exact Or.inl h
      · exact Or.inr ⟨s, Or.inl hs, e⟩
    · rcases subtreesList_rewrite ns t h with h | ⟨s, hs, e⟩
      · exact Or.inl h
      · exact Or.inr ⟨s, Or.inr hs, e⟩
end

mutual
/-- The write moves references, it neither copies nor drops one that the new contents do not
carry. -/
theorem Node.count_refs_rewrite {r : Ref} (hr : r ∉ refsList new) : ∀ n : Node,
    (Node.rewrite b cls new n).refs.count r + (refsList (n.removed b)).count r = n.refs.count r
  | .element r' tg c a kids => by
    have ih := count_refsList_rewrite hr kids
    by_cases hb : r' = b
    · simp only [Node.rewrite, hb, if_true, Node.removed, Node.refs, List.count_cons,
        List.count_eq_zero_of_not_mem hr]
      omega
    · simp only [Node.rewrite, hb, if_false, Node.removed, Node.refs, List.count_cons]
      omega
  | .text r' d => by simp [Node.rewrite, Node.removed, refsList]
theorem count_refsList_rewrite {r : Ref} (hr : r ∉ refsList new) : ∀ ns : List Node,
    (refsList (rewriteList b cls new ns)).count r + (refsList (removedList b ns)).count r
      = (refsList ns).count r
  | [] => by simp [rewriteList, removedList, refsList]
  | n :: ns => by
    have h1 := Node.count_refs_rewrite hr n
    have h2 := count_refsList_rewrite hr ns
    simp only [rewriteList, removedList, refsList, refsList_append, List.count_append]
    omega
end

mutual
/-- References carried neither by the removed trees nor by the new contents are listed as
before. -/
theorem Node.filter_refs_rewrite (q : Ref → Bool) (hnew : ∀ r ∈ refsList new, q r = false) :
    ∀ n : Node, (∀ r ∈ refsList (n.removed b), q r = false) →
      (Node.rewrite b cls new n).refs.filter q = n.refs.filter q
  | .element r' tg c a kids, h => by
    by_cases hb : r' = b
    · simp only [Node.removed, hb, if_true] at h
      simp only [Node.rewrite, hb, if_true, Node.refs, List.filter_cons]
      rw [List.filter_eq_nil_iff.2 (fun r hr => by simp [hnew r hr]),
        List.filter_eq_nil_iff.2 (fun r hr => by simp [h r hr])]
    · simp only [Node.removed, hb, if_false] at h
      simp only [Node.rewrite, hb, if_false, Node.refs, List.filter_cons,
        filter_refsList_rewrite q hnew kids h]
  | .text r' d, _ => rfl
theorem filter_refsList_rewrite (q : Ref → Bool) (hnew : ∀ r ∈ refsList new, q r = false) :
    ∀ ns : List Node, (∀ r ∈ refsList (removedList b ns), q r = false) →
      (refsList (rewriteList b cls new ns)).filter q = (refsList ns).filter q
  | [], _ => rfl
  | n :: ns, h => by
    simp only [removedList, refsList_append, List.mem_append] at h
    simp only [rewriteList, refsList, List.filter_append,
      Node.filter_refs_rewrite q hnew n (fun r hr => h r (Or.inl hr)),
      filter_refsList_rewrite q hnew ns (fun r hr => h r (Or.inr hr))]
end

end rewrite

/-! ## The wrapper -/

theorem copyWrapper_eq (n : Nat) (text : String) :
    copyWrapper n text =
      .element (.script (n + 2)) "div" "doks-clipboard" []
        [.element (.script (n + 1)) "button" "btn-clipboard btn btn-link"
          [("data-clipboard-text", text)]
          [.element (.script n) "span" "copy-status" [] []]] := rfl

theorem copyWrapper_refs (n : Nat) (text : String) :
    (copyWrapper n text).refs = [.script (n + 2), .script (n + 1), .script n] := rfl

theorem copyWrapper_textContent (n : Nat) (text : String) :
    (copyWrapper n text).textContent = "" := rfl

theorem copyWrapper_ref (n : Nat) (text : String) :
    (copyWrapper n text).ref = .script (n + 2) := rfl

/-! ## The run: one step, the loop -/

theorem decorateBlock_of_parents {hl : Highlighter} {st : State} {b pre parent : Ref}
    (h1 : parentNode st.document st.detached b = .element pre)
    (h2 : parentNode st.document st.detached pre = .element parent) :
    decorateBlock hl st b =
      highlightBlock hl
        (State.insertBefore { st with created := st.created + 3 } b
          (copyWrapper st.created (textContent st.document st.detached b)) parent pre) b := by
  simp [decorateBlock, h1, h2]

/-- To show a property of the state after one step, show it of the state of a step that fails
before inserting, and of the states after the insertion and the call of the highlighter. -/
theorem decorateBlock_state (hl : Highlighter) (st : State) (b : Ref) (Q : State → Prop)
    (hfail : Q { st with created := st.created + 3 })
    (hins : ∀ pre parent, parentNode st.document st.detached b = .element pre →
      parentNode st.document st.detached pre = .element parent →
      ∀ st1, st1 = State.insertBefore { st with created := st.created + 3 } b
          (copyWrapper st.created (textContent st.document st.detached b)) parent pre →
        Q { st1 with trace := st1.trace ++ [Event.highlighted b] } ∧
        ∀ cls html,
          Q (State.write { st1 with trace := st1.trace ++ [Event.highlighted b] } b cls html)) :
    Q (decorateBlock hl st b).1 := by
  cases h1 : parentNode st.document st.detached b with
  | null => simpa [decorateBlock, h1] using hfail
  | document => simpa [decorateBlock, h1] using hfail
  | element pre =>
    cases h2 : parentNode st.document st.detached pre with
    | null => simpa [decorateBlock, h1, h2] using hfail
    | document => simpa [decorateBlock, h1, h2] using hfail
    | element parent =>
      rw [decorateBlock_of_parents h1 h2]
      obtain ⟨ha, hb⟩ := hins pre parent h1 h2 _ rfl
      simp only [highlightBlock]
      split
      · exact ha
      · exact ha
      · exact hb _ _

theorem decorateBlock_ok {hl : Highlighter} {st : State} {b pre parent : Ref}
    (hhl : ∀ d e r, hl d e r ≠ .threw)
    (h1 : parentNode st.document st.detached b = .element pre)
    (h2 : parentNode st.document st.detached pre = .element parent) :
    (decorateBlock hl st b).2 = none := by
  rw [decorateBlock_of_parents h1 h2]
  simp only [highlightBlock]
  split
  · next h => exact absurd h (hhl _ _ _)
  · rfl
  · rfl

/-- A property kept by every step holds of the state the loop ends in, for the blocks it has
not reached; it has reached all of them when no exception ended it. -/
theorem forEach_invariant (f : State → Ref → State × Option Failure)
    (I : State → List Ref → Prop)
    (step : ∀ st b rest, I st (b :: rest) → I (f st b).1 rest) :
    ∀ (bs : List Ref) (st : State), I st bs →
      ∃ rest, I (forEach f st bs).1 rest ∧ ((forEach f st bs).2 = none → rest = [])
  | [], st, h => ⟨[], h, fun _ => rfl⟩
  | b :: bs, st, h => by
    have hs := step st b bs h
    simp only [forEach]
    cases hf : f st b with
    | mk st' e =>
      rw [hf] at hs
      cases e with
      | none => exact forEach_invariant f I step bs st' hs
      | some e => exact ⟨bs, hs, fun h => by cases h⟩

/-- When moreover no step fails, the loop ends without exception. -/
theorem forEach_ok (f : State → Ref → State × Option Failure)
    (I : State → List Ref → Prop)
    (step : ∀ st b rest, I st (b :: rest) → I (f st b).1 rest)
    (ok : ∀ st b rest, I st (b :: rest) → (f st b).2 = none) :
    ∀ (bs : List Ref) (st : State), I st bs →
      (forEach f st bs).2 = none ∧ I (forEach f st bs).1 []
  | [], st, h => ⟨rfl, h⟩
  | b :: bs, st, h => by
    have hs := step st b bs h
    have ho := ok st b bs h
    simp only [forEach]
    cases hf : f st b with
    | mk st' e =>
      rw [hf] at hs ho
      simp only at ho
      subst ho
      exact forEach_ok f I step ok bs st' hs

/-! ## The page -/

mutual
theorem Node.matchPreCode_sublist : ∀ (inPre : Bool) (n : Node),
    (n.matchPreCode inPre).Sublist n.refs
  | inPre, .element r tg c a kids => by
    have ih := matchPreCodeList_sublist (inPre || decide (tg = "pre")) kids
    simp only [Node.matchPreCode, Node.refs]
    split
    · exact ih.cons₂ _
    · exact ih.cons _
  | _, .text r d => by simp [Node.matchPreCode]
theorem matchPreCodeList_sublist : ∀ (inPre : Bool) (ns : List Node),
    (matchPreCodeList inPre ns).Sublist (refsList ns)
  | _, [] => by simp [matchPreCodeList, refsList]
  | inPre, n :: ns => by
    simp only [matchPreCodeList, refsList]
    exact (Node.matchPreCode_sublist inPre n).append (matchPreCodeList_sublist inPre ns)
end

theorem querySelectorAll_sublist (page : List Node) :
    (querySelectorAll page).Sublist (refsList page) :=
  matchPreCodeList_sublist false page

theorem mem_refs_of_block {page : List Node} {b : Ref} (h : b ∈ querySelectorAll page) :
    b ∈ refsList page :=
  (querySelectorAll_sublist page).subset h

theorem WellFormed.count_le {page : List Node} (h : WellFormed page) (r : Ref) :
    (refsList page).count r ≤ 1 :=
  List.nodup_iff_count_le_one.1 h.1 r

theorem WellFormed.isPage_block {page : List Node} (h : WellFormed page) {b : Ref}
    (hb : b ∈ querySelectorAll page) : b.isPage = true :=
  h.2 b (mem_refs_of_block hb)

theorem WellFormed.nodup_blocks {page : List Node} (h : WellFormed page) :
    (querySelectorAll page).Nodup :=
  h.1.sublist (querySelectorAll_sublist page)

theorem subtreeRefs_eq {page : List Node} {t : Node} (ht : t ∈ subtreesList page)
    (hc : (refsList page).count t.ref ≤ 1) : subtreeRefs page t.ref = t.refs := by
  simp [subtreeRefs, findList_eq_of_mem ht hc]

theorem textContent_eq {document detached : List Node} {t : Node}
    (ht : t ∈ subtreesList (document ++ detached))
    (hc : (refsList (document ++ detached)).count t.ref ≤ 1) :
    textContent document detached t.ref = t.textContent := by
  simp [textContent, findList_eq_of_mem ht hc]

mutual
/-- In document order a node comes after every node that is not inside it. -/
theorem Node.refs_pairwise : ∀ n : Node, n.refs.Nodup →
    n.refs.Pairwise (fun i j => ∀ t ∈ n.subtrees, t.ref = j → i ∉ t.refs)
  | .element r tg c a kids, h => by
    simp only [Node.refs, List.nodup_cons] at h
    have ih := refsList_pairwise kids h.2
    simp only [Node.refs, List.pairwise_cons]
    constructor
    · intro j hj t ht htj hr
      simp only [Node.subtrees, List.mem_cons] at ht
      rcases ht with rfl | ht
      · simp only [Node.ref_element] at htj
        exact h.1 (htj ▸ hj)
      · exact h.1 ((refs_sublist ht).subset hr)
    · refine ih.imp_of_mem ?_
      intro i j _ hj hij t ht htj
      simp only [Node.subtrees, List.mem_cons] at ht
      rcases ht with rfl | ht
      · simp only [Node.ref_element] at htj
        exact absurd (htj ▸ hj) h.1
      · exact hij t ht htj
  | .text r d, _ => by simp [Node.refs]
theorem refsList_pairwise : ∀ ns : List Node, (refsList ns).Nodup →
    (refsList ns).Pairwise (fun i j => ∀ t ∈ subtreesList ns, t.ref = j → i ∉ t.refs)
  | [], _ => by simp [refsList]
  | n :: ns, h => by
    simp only [refsList, List.nodup_append] at h
    obtain ⟨h1, h2, hd⟩ := h
    have ih1 := Node.refs_pairwise n h1
    have ih2 := refsList_pairwise ns h2
    simp only [refsList, List.pairwise_append, subtreesList, List.mem_append]
    refine ⟨ih1.imp_of_mem ?_, ih2.imp_of_mem ?_, ?_⟩
    · intro i j _ hj hij t ht htj
      rcases ht with ht | ht
      · exact hij t ht htj
      · exact absurd (htj ▸ ref_mem_refsList ht) (fun hh => hd hj hh)
    · intro i j _ hj hij t ht htj
      rcases ht with ht | ht
      · have : j ∈ n.refs := by
          rw [Node.refs_eq_map]; exact htj ▸ List.mem_map_of_mem _ ht
        exact absurd hj (fun hh => hd this hh)
      · exact hij t ht htj
    · intro i hi j hj t ht htj hr
      rcases ht with ht | ht
      · have : j ∈ n.refs := by
          rw [Node.refs_eq_map]; exact htj ▸ List.mem_map_of_mem _ ht
        exact hd this hj
      · exact hd hi ((refs_sublist ht).subset hr)
end

/-- The blocks come in document order: an earlier one is not inside a later one. -/
theorem WellFormed.blocks_pairwise {page : List Node} (h : WellFormed page) :
    (querySelectorAll page).Pairwise (fun i j => i ∉ subtreeRefs page j) := by
  refine ((refsList_pairwise page h.1).sublist (querySelectorAll_sublist page)).imp ?_
  intro i j hij
  unfold subtreeRefs
  cases hf : findList j page with
  | none => simp
  | some t =>
    have := findList_sound _ _ _ hf
    exact hij t this.1 this.2

/-! ## The general invariant -/

theorem isPage_not_mem_copyWrapper {r : Ref} (hr : r.isPage = true) (n : Nat) (text : String) :
    r ∉ (copyWrapper n text).refs := by
  rw [copyWrapper_refs]
  intro h
  simp only [List.mem_cons, List.mem_singleton, List.not_mem_nil, or_false] at h
  rcases h with rfl | rfl | rfl <;> simp [Ref.isPage] at hr

theorem isPage_not_mem_toNodes {r : Ref} (hr : r.isPage = true) (html : List Markup) :
    r ∉ refsList (toNodes html) := by
  intro h
  rw [toNodes_refs html r h] at hr
  simp [Ref.isPage] at hr

theorem mem_of_count_le {r : Ref} {l m : List Ref} (h : l.count r ≤ m.count r) (hr : r ∈ l) :
    r ∈ m := by
  have := List.count_pos_iff.2 hr
  exact List.count_pos_iff.1 (by omega)

theorem Inv0.init {page : List Node} (h : WellFormed page) :
    Inv0 page ⟨page, [], 0, []⟩ (querySelectorAll page) where
  uniq := fun n => by simpa using h.count_le (.page n)
  sub := by
    intro j _ t ht htj r hr _
    simp only [List.append_nil] at ht
    rw [← htj, subtreeRefs_eq ht (h.count_le _)]
    exact hr
  kept := by
    intro j hj
    obtain ⟨t, ht, htj⟩ := exists_subtree_of_mem_refs (mem_refs_of_block hj)
    refine ⟨t, by simpa using ht, htj, ?_⟩
    rw [← htj, textContent_eq (by simpa using ht) (by simpa using h.count_le _)]
  order := h.blocks_pairwise
  blocks := fun _ hj => hj
  payload := by intro b w p q hm; simp at hm

theorem Inv0.of_eq {page : List Node} {st st' : State} {rest : List Ref}
    (h : Inv0 page st rest) (hd : st'.document = st.document) (he : st'.detached = st.detached)
    (ht : st'.trace = st.trace) : Inv0 page st' rest where
  uniq := by rw [hd, he]; exact h.uniq
  sub := by rw [hd, he]; exact h.sub
  kept := by rw [hd, he]; exact h.kept
  order := h.order
  blocks := h.blocks
  payload := by rw [ht]; exact h.payload

theorem Inv0.tail {page : List Node} {st : State} {b : Ref} {rest : List Ref}
    (h : Inv0 page st (b :: rest)) : Inv0 page st rest where
  uniq := h.uniq
  sub := h.sub
  kept := fun j hj => h.kept j (List.mem_cons_of_mem _ hj)
  order := (List.pairwise_cons.1 h.order).2
  blocks := fun j hj => h.blocks j (List.mem_cons_of_mem _ hj)
  payload := h.payload

theorem Inv0.called {page : List Node} {st : State} {rest : List Ref} (b : Ref)
    (h : Inv0 page st rest) :
    Inv0 page { st with trace := st.trace ++ [Event.highlighted b] } rest where
  uniq := h.uniq
  sub := h.sub
  kept := h.kept
  order := h.order
  blocks := h.blocks
  payload := by
    intro b' w p q hm
    simp only [List.mem_append, List.mem_singleton] at hm
    rcases hm with hm | hm
    · exact h.payload b' w p q hm
    · cases hm

/-- The text the step reads from the block is the text the block had in the page. -/
theorem Inv0.text_eq {page : List Node} (hwf : WellFormed page) {st : State} {b : Ref}
    {rest : List Ref} (h : Inv0 page st (b :: rest)) :
    textContent st.document st.detached b = textContent page [] b := by
  obtain ⟨t, ht, htb, htx⟩ := h.kept b (List.mem_cons_self _ _)
  have hp : b.isPage = true := hwf.isPage_block (h.blocks b (List.mem_cons_self _ _))
  have hc : (refsList (st.document ++ st.detached)).count t.ref ≤ 1 := by
    rw [htb]
    cases b with
    | page n => exact h.uniq n
    | script n => simp [Ref.isPage] at hp
    | engine => simp [Ref.isPage] at hp
  rw [← htb, textContent_eq ht hc, htx, htb]

theorem Inv0.insert {page : List Node} (hwf : WellFormed page) {st : State} {b : Ref}
    {rest : List Ref} (h : Inv0 page st (b :: rest)) (n : Nat) (parent pre : Ref) :
    Inv0 page
      (State.insertBefore st b (copyWrapper n (textContent st.document st.detached b))
        parent pre) (b :: rest) where
  uniq := by
    intro k
    simp only [State.insertBefore, ← insertBeforeList_append]
    rw [count_refsList_insertBefore _ _ _
      (isPage_not_mem_copyWrapper (r := .page k) rfl _ _)]
    exact h.uniq k
  sub := by
    intro j hj t ht htj r hr hp
    simp only [State.insertBefore, ← insertBeforeList_append] at ht
    rcases subtreesList_insertBefore _ _ _ _ t ht with hw | ⟨s, hs, e⟩
    · have : j ∈ (copyWrapper n (textContent st.document st.detached b)).refs := by
        rw [Node.refs_eq_map, ← htj]; exact List.mem_map_of_mem _ hw
      exact absurd this (isPage_not_mem_copyWrapper (hwf.isPage_block hj) _ _)
    · subst e
      rw [Node.insertBefore_ref] at htj
      refine h.sub j hj s hs htj r ?_ hp
      refine mem_of_count_le (le_of_eq ?_) hr
      exact count_refs_insertBefore _ _ _ (isPage_not_mem_copyWrapper hp _ _) s
  kept := by
    intro j hj
    obtain ⟨t, ht, htj, htx⟩ := h.kept j hj
    refine ⟨Node.insertBefore parent (copyWrapper n (textContent st.document st.detached b))
      pre t, ?_, ?_, ?_⟩
    · simp only [State.insertBefore, ← insertBeforeList_append]
      exact insertBeforeList_mem_subtrees _ _ _ _ t ht
    · rw [Node.insertBefore_ref, htj]
    · rw [Node.textContent_insertBefore _ _ _ (copyWrapper_textContent _ _), htx]
  order := h.order
  blocks := h.blocks
  payload := by
    intro b' w p q hm
    simp only [State.insertBefore, List.mem_append, List.mem_singleton] at hm
    rcases hm with hm | hm
    · exact h.payload b' w p q hm
    · cases hm
      exact ⟨h.blocks b (List.mem_cons_self _ _), n, by rw [h.text_eq hwf]⟩

theorem mem_subtreesList_write {st : State} {b : Ref} {cls : String} {html : List Markup}
    {t : Node} (ht : t ∈ subtreesList (st.document ++ st.detached)) (hb : b ∉ t.refs) :
    t ∈ subtreesList ((st.write b cls html).document ++ (st.write b cls html).detached) := by
  have := rewriteList_mem_subtrees b cls (toNodes html) _ t ht
  rw [Node.rewrite_eq_self b cls (toNodes html) t hb] at this
  simp only [State.write, rewriteList_append, removedList_append, subtreesList_append,
    List.mem_append] at this ⊢
  tauto

theorem subtreesList_write {st : State} {b : Ref} {cls : String} {html : List Markup}
    {t : Node}
    (ht : t ∈ subtreesList ((st.write b cls html).document ++ (st.write b cls html).detached)) :
    t ∈ subtreesList (toNodes html)
      ∨ (∃ s ∈ subtreesList (st.document ++ st.detached),
          t = Node.rewrite b cls (toNodes html) s)
      ∨ t ∈ subtreesList (st.document ++ st.detached) := by
  simp only [State.write, subtreesList_append, List.mem_append] at ht ⊢
  rcases ht with ht | (ht | ht) | ht
  · rcases subtreesList_rewrite _ _ _ _ t ht with h | ⟨s, hs, e⟩
    · exact Or.inl h
    · exact Or.inr (Or.inl ⟨s, Or.inl hs, e⟩)
  · rcases subtreesList_rewrite _ _ _ _ t ht with h | ⟨s, hs, e⟩
    · exact Or.inl h
    · exact Or.inr (Or.inl ⟨s, Or.inr hs, e⟩)
  · exact Or.inr (Or.inr (Or.inl (subtrees_removedList_sub b ht)))
  · exact Or.inr (Or.inr (Or.inr (subtrees_removedList_sub b ht)))

theorem count_refsList_write {st : State} {b : Ref} {cls : String} {html : List Markup}
    {r : Ref} (hr : r.isPage = true) :
    (refsList ((st.write b cls html).document ++ (st.write b cls html).detached)).count r
      = (refsList (st.document ++ st.detached)).count r := by
  have h1 := count_refsList_rewrite b cls (toNodes html) (isPage_not_mem_toNodes hr html)
    st.document
  have h2 := count_refsList_rewrite b cls (toNodes html) (isPage_not_mem_toNodes hr html)
    st.detached
  simp only [State.write, refsList_append, List.count_append]
  omega

theorem Inv0.write {page : List Node} (hwf : WellFormed page) {st : State} {b : Ref}
    {rest : List Ref} (h : Inv0 page st (b :: rest)) (cls : String) (html : List Markup) :
    Inv0 page (st.write b cls html) rest where
  uniq := by
    intro k
    rw [count_refsList_write (r := .page k) rfl]
    exact h.uniq k
  sub := by
    intro j hj t ht htj r hr hp
    rcases subtreesList_write ht with hn | ⟨s, hs, e⟩ | hs
    · have : j ∈ refsList (toNodes html) := htj ▸ ref_mem_refsList hn
      exact absurd this (isPage_not_mem_toNodes (hwf.isPage_block hj) html)
    · subst e
      rw [Node.rewrite_ref] at htj
      refine h.sub j hj s hs htj r ?_ hp
      refine mem_of_count_le ?_ hr
      have := Node.count_refs_rewrite b cls (toNodes html) (isPage_not_mem_toNodes hp html) s
      omega
    · exact h.sub j hj t hs htj r hr hp
  kept := by
    intro j hj
    obtain ⟨t, ht, htj, htx⟩ := h.kept j (List.mem_cons_of_mem _ hj)
    refine ⟨t, mem_subtreesList_write ht ?_, htj, htx⟩
    intro hb
    have hbp : b.isPage = true := hwf.isPage_block (h.blocks b (List.mem_cons_self _ _))
    have := h.sub j (h.blocks j (List.mem_cons_of_mem _ hj)) t ht htj b hb hbp
    exact (List.pairwise_cons.1 h.order).1 j hj this
  order := (List.pairwise_cons.1 h.order).2
  blocks := fun j hj => h.blocks j (List.mem_cons_of_mem _ hj)
  payload := h.payload

theorem Inv0.step {page : List Node} (hwf : WellFormed page) (hl : Highlighter) (st : State)
    (b : Ref) (rest : List Ref) (h : Inv0 page st (b :: rest)) :
    Inv0 page (decorateBlock hl st b).1 rest := by
  refine decorateBlock_state hl st b (fun s => Inv0 page s rest) ?_ ?_
  · exact h.tail.of_eq rfl rfl rfl
  · intro pre parent _ _ st1 e
    have h0 : Inv0 page { st with created := st.created + 3 } (b :: rest) := h.of_eq rfl rfl rfl
    have h1 : Inv0 page st1 (b :: rest) := by
      rw [e]; exact h0.insert hwf st.created parent pre
    exact ⟨(h1.called b).tail, fun cls html => (h1.called b).write hwf cls html⟩

/-- The general invariant holds of the state the run ends in. -/
theorem Inv0.final {page : List Node} (hwf : WellFormed page) (hl : Highlighter) :
    ∃ rest, Inv0 page (onDOMContentLoaded hl page).1 rest ∧
      ((onDOMContentLoaded hl page).2 = none → rest = []) :=
  forEach_invariant (decorateBlock hl) (Inv0 page) (Inv0.step hwf hl) _ _ (Inv0.init hwf)

/-! ## Pages without nested blocks -/

theorem mem_refsList_iff {r : Ref} {ns : List Node} :
    r ∈ refsList ns ↔ ∃ n ∈ ns, r ∈ n.refs := by
  induction ns with
  | nil => simp [refsList]
  | cons m ms ih => simp [refsList, ih]

theorem mem_refsList_of_hasRoot {r : Ref} {ns : List Node} (h : hasRoot r ns = true) :
    r ∈ refsList ns := by
  obtain ⟨n, hn, hr⟩ := hasRoot_iff.1 h
  exact ref_mem_refsList (mem_subtreesList_of_mem hn) |> (hr ▸ ·)

mutual
theorem Node.matchPreCode_parent : ∀ (inPre : Bool) (n : Node) (b : Ref),
    b ∈ n.matchPreCode inPre →
      (inPre = true ∧ n.ref = b) ∨ ∃ t ∈ n.subtrees, hasRoot b t.childNodes = true
  | inPre, .element r tg c a kids, b, h => by
    simp only [Node.matchPreCode, List.mem_append] at h
    rcases h with h | h
    · split at h
      · next hc =>
        simp only [List.mem_singleton] at h
        simp only [Bool.and_eq_true] at hc
        exact Or.inl ⟨hc.1, h.symm⟩
      · cases h
    · right
      rcases matchPreCodeList_parent _ kids b h with ⟨_, hr⟩ | ⟨t, ht, hr⟩
      · exact ⟨_, Node.self_mem_subtrees _, hr⟩
      · exact ⟨t, by simp only [Node.subtrees, List.mem_cons]; exact Or.inr ht, hr⟩
  | _, .text r d, b, h => by simp [Node.matchPreCode] at h
theorem matchPreCodeList_parent : ∀ (inPre : Bool) (ns : List Node) (b : Ref),
    b ∈ matchPreCodeList inPre ns →
      (inPre = true ∧ hasRoot b ns = true) ∨ ∃ t ∈ subtreesList ns, hasRoot b t.childNodes = true
  | _, [], b, h => by simp [matchPreCodeList] at h
  | inPre, n :: ns, b, h => by
    simp only [matchPreCodeList, List.mem_append] at h
    simp only [subtreesList, List.mem_append]
    rcases h with h | h
    · rcases Node.matchPreCode_parent inPre n b h with ⟨h1, h2⟩ | ⟨t, ht, hr⟩
      · exact Or.inl ⟨h1, by simp [hasRoot, h2]⟩
      · exact Or.inr ⟨t, Or.inl ht, hr⟩
    · rcases matchPreCodeList_parent inPre ns b h with ⟨h1, h2⟩ | ⟨t, ht, hr⟩
      · refine Or.inl ⟨h1, ?_⟩
        simp only [hasRoot, List.any_cons, Bool.or_eq_true] at h2 ⊢
        exact Or.inr h2
      · exact Or.inr ⟨t, Or.inr ht, hr⟩
end

/-- An element matching `pre code` has a parent element in the page. -/
theorem block_parent {page : List Node} {b : Ref} (hb : b ∈ querySelectorAll page) :
    ∃ pp, parentOfList b page = some pp := by
  rcases matchPreCodeList_parent false page b hb with ⟨h, _⟩ | ⟨t, ht, hr⟩
  · cases h
  · cases h : parentOfList b page with
    | none => rw [parentOfList_none b page h t ht] at hr; cases hr
    | some pp => exact ⟨pp, rfl⟩

theorem WellFormed.isPage_parent {page : List Node} (hwf : WellFormed page) {r pp : Ref}
    (h : parentOfList r page = some pp) : pp.isPage = true := by
  obtain ⟨t, ht, hp, _⟩ := parentOfList_sound r page pp h
  exact hwf.2 pp (hp ▸ ref_mem_refsList ht)

theorem Inv0.count_document_le {page : List Node} {st : State} {rest : List Ref}
    (h : Inv0 page st rest) {r : Ref} (hr : r.isPage = true) :
    (refsList st.document).count r ≤ 1 := by
  have h1 : (refsList (st.document ++ st.detached)).count r ≤ 1 := by
    cases r with
    | page n => exact h.uniq n
    | script n => simp [Ref.isPage] at hr
    | engine => simp [Ref.isPage] at hr
  rw [refsList_append, List.count_append] at h1
  omega

theorem mem_subtreesList_append_left {t : Node} {a b : List Node} (h : t ∈ subtreesList a) :
    t ∈ subtreesList (a ++ b) := by
  rw [subtreesList_append]; exact List.mem_append_left _ h

/-- A block does not lie inside a block of a page without nested blocks. -/
theorem block_inside_absurd {page : List Node} (hwf : WellFormed page) (hnn : NoNesting page)
    {st : State} {rest : List Ref} (h0 : Inv0 page st rest) {t : Node}
    (ht : t ∈ subtreesList st.document) (hb : t.ref ∈ querySelectorAll page) {j : Ref}
    (hj : j ∈ querySelectorAll page) (hin : j ∈ refsList t.childNodes) : False := by
  have hjp : j.isPage = true := hwf.isPage_block hj
  have hjt : j ∈ t.refs := by rw [Node.refs_eq]; exact List.mem_cons_of_mem _ hin
  have hs := h0.sub t.ref hb t (mem_subtreesList_append_left ht) rfl j hjt hjp
  have he : t.ref = j := by
    by_contra hne
    exact hnn t.ref hb j hj hne hs
  have h1 : 2 ≤ t.refs.count j := by
    rw [Node.refs_eq, he, List.count_cons_self]
    have := List.count_pos_iff.2 hin
    omega
  have h2 := (refs_sublist ht).count_le j
  have h3 := h0.count_document_le hjp
  omega

theorem hasRoot_insertBefore_childNodes (g : Ref) (w : Node) (p : Ref) {r : Ref} {n : Node}
    (h : hasRoot r n.childNodes = true) :
    hasRoot r (Node.insertBefore g w p n).childNodes = true := by
  rw [Node.insertBefore_childNodes]
  have h' : hasRoot r (insertBeforeList g w p n.childNodes) = true := by
    rw [hasRoot_insertBeforeList]; exact h
  split
  · obtain ⟨m, hm, hr⟩ := hasRoot_iff.1 h'
    exact hasRoot_iff.2 ⟨m, mem_insertAt w p hm, hr⟩
  · exact h'

theorem hasRoot_rewrite_childNodes (b : Ref) (cls : String) (new : List Node) {r : Ref}
    {n : Node} (hn : n.ref ≠ b) (h : hasRoot r n.childNodes = true) :
    hasRoot r (Node.rewrite b cls new n).childNodes = true := by
  rw [Node.rewrite_childNodes b cls new hn, hasRoot_rewriteList]; exact h

theorem Node.rewrite_childNodes_of_ref (b : Ref) (cls : String) (new : List Node) {n : Node}
    (hn : n.ref = b) : ∀ r ∈ refsList (Node.rewrite b cls new n).childNodes, r ∈ refsList new := by
  cases n with
  | element r' t c a kids =>
    simp only [Node.ref_element] at hn
    simp [Node.rewrite, hn]
  | text r' d => simp [Node.rewrite, refsList]

/-- The child with the reference `p` of a node inside `t` is inside `t`. -/
theorem child_inside {t s : Node} (hs : s ∈ t.subtrees) {c : Node} (hc : c ∈ s.childNodes) :
    c ∈ subtreesList t.childNodes := by
  rw [Node.subtrees_eq] at hs
  rcases List.mem_cons.1 hs with rfl | hs
  · exact mem_subtreesList_of_mem hc
  · exact child_mem_subtreesList hs hc

/-- The element found as parent of the block in the current document is its parent in the
page. -/
theorem Inv1.parentNode_block {page : List Node} (hwf : WellFormed page) {st : State}
    {rest : List Ref} (h0 : Inv0 page st rest) (h1 : Inv1 page st) {b pp : Ref}
    (hb : b ∈ querySelectorAll page) (hpp : parentOfList b page = some pp) :
    parentNode st.document st.detached b = .element pp := by
  obtain ⟨t, ht, htp, hr⟩ := h1.par b hb pp hpp
  rw [parentNode_eq (h0.count_document_le (hwf.isPage_block hb)) ht hr, htp]

theorem Inv1.parentNode_parent {page : List Node} (hwf : WellFormed page) {st : State}
    {rest : List Ref} (h0 : Inv0 page st rest) (h1 : Inv1 page st) {b pp gg : Ref}
    (hb : b ∈ querySelectorAll page) (hpp : parentOfList b page = some pp)
    (hgg : parentOfList pp page = some gg) :
    parentNode st.document st.detached pp = .element gg := by
  obtain ⟨t, ht, htp, hr⟩ := h1.gpar b hb pp gg hpp hgg
  rw [parentNode_eq (h0.count_document_le (hwf.isPage_parent hpp)) ht hr, htp]

/-- The parent of the block `j` does not lie inside the subtree `t` of a block. -/
theorem parent_inside_absurd {page : List Node} (hwf : WellFormed page) (hnn : NoNesting page)
    {st : State} {rest : List Ref} (h0 : Inv0 page st rest) (h1 : Inv1 page st) {t : Node}
    (ht : t ∈ subtreesList st.document) (hb : t.ref ∈ querySelectorAll page) {j pp : Ref}
    (hj : j ∈ querySelectorAll page) (hpp : parentOfList j page = some pp) {c : Node}
    (hc : c ∈ subtreesList t.childNodes) (hcp : c.ref = pp) : False := by
  obtain ⟨P, hP, hPp, hr⟩ := h1.par j hj pp hpp
  have hcd : c ∈ subtreesList st.document :=
    subtrees_trans ht (by rw [Node.subtrees_eq]; exact List.mem_cons_of_mem _ hc)
  have hcnt : (refsList st.document).count c.ref ≤ 1 := by
    rw [hcp]; exact h0.count_document_le (hwf.isPage_parent hpp)
  have e : c = P := subtree_unique hcd hP (hcp.trans hPp.symm) hcnt
  subst e
  obtain ⟨B, hB, hBj⟩ := hasRoot_iff.1 hr
  have : j ∈ refsList t.childNodes := hBj ▸ ref_mem_refsList (child_mem_subtreesList hc hB)
  exact block_inside_absurd hwf hnn h0 ht hb hj this

theorem isScript_eq_false_of_isPage {r : Ref} (h : r.isPage = true) : r.isScript = false := by
  cases r <;> simp_all [Ref.isPage, Ref.isScript]

theorem isScript_engine {r : Ref} {html : List Markup} (h : r ∈ refsList (toNodes html)) :
    r.isScript = false := by
  rw [toNodes_refs html r h]; rfl

theorem Inv1.atStart {page : List Node} (hwf : WellFormed page) : Inv1 page ⟨page, [], 0, []⟩ where
  par := by
    intro j _ pp hpp
    obtain ⟨t, ht, hp, hr⟩ := parentOfList_sound j page pp hpp
    exact ⟨t, ht, hp, hr⟩
  gpar := by
    intro j _ pp gg _ hgg
    obtain ⟨t, ht, hp, hr⟩ := parentOfList_sound pp page gg hgg
    exact ⟨t, ht, hp, hr⟩
  clean := by
    intro j _ t ht _ r hr
    apply isScript_eq_false_of_isPage
    apply hwf.2
    apply (refs_sublist ht).subset
    rw [Node.refs_eq]; exact List.mem_cons_of_mem _ hr

theorem Inv1.afterInsert {page : List Node} (hwf : WellFormed page) (hnn : NoNesting page)
    {st : State} {b : Ref} {rest : List Ref} (h0 : Inv0 page st (b :: rest))
    (h1 : Inv1 page st) (n : Nat) (text : String) (parent : Ref) {pre : Ref}
    (hpre : parentNode st.document st.detached b = .element pre) :
    Inv1 page (State.insertBefore st b (copyWrapper n text) parent pre) where
  par := by
    intro j hj pp hpp
    obtain ⟨t, ht, hp, hr⟩ := h1.par j hj pp hpp
    exact ⟨Node.insertBefore parent (copyWrapper n text) pre t,
      insertBeforeList_mem_subtrees _ _ _ _ t ht, by rw [Node.insertBefore_ref, hp],
      hasRoot_insertBefore_childNodes _ _ _ hr⟩
  gpar := by
    intro j hj pp gg hpp hgg
    obtain ⟨t, ht, hp, hr⟩ := h1.gpar j hj pp gg hpp hgg
    exact ⟨Node.insertBefore parent (copyWrapper n text) pre t,
      insertBeforeList_mem_subtrees _ _ _ _ t ht, by rw [Node.insertBefore_ref, hp],
      hasRoot_insertBefore_childNodes _ _ _ hr⟩
  clean := by
    intro j hj t ht htj
    have hb : b ∈ querySelectorAll page := h0.blocks b (List.mem_cons_self _ _)
    obtain ⟨pp, hpp⟩ := block_parent hb
    have e : pre = pp := by
      have := Inv1.parentNode_block hwf h0 h1 hb hpp
      rw [hpre] at this
      exact Parent.element.inj this
    subst e
    rcases subtreesList_insertBefore _ _ _ _ t ht with hw | ⟨s, hs, e⟩
    · have : j ∈ (copyWrapper n text).refs := by
        rw [Node.refs_eq_map, ← htj]; exact List.mem_map_of_mem _ hw
      exact absurd this (isPage_not_mem_copyWrapper (hwf.isPage_block hj) _ _)
    · subst e
      rw [Node.insertBefore_ref] at htj
      rw [Node.insertBefore_eq_self]
      · exact h1.clean j hj s hs htj
      · intro u hu _
        cases hr : hasRoot pre u.childNodes with
        | false => rfl
        | true =>
          exfalso
          obtain ⟨c, hc, hcp⟩ := hasRoot_iff.1 hr
          exact parent_inside_absurd hwf hnn h0 h1 hs (htj ▸ hj) hb hpp (child_inside hu hc) hcp

theorem Inv1.afterCall {page : List Node} {st : State} (b : Ref) (h : Inv1 page st) :
    Inv1 page { st with trace := st.trace ++ [Event.highlighted b] } where
  par := h.par
  gpar := h.gpar
  clean := h.clean

theorem Inv1.made {page : List Node} {st : State} (n : Nat) (h : Inv1 page st) :
    Inv1 page { st with created := n } where
  par := h.par
  gpar := h.gpar
  clean := h.clean

theorem Inv1.afterWrite {page : List Node} (hwf : WellFormed page) (hnn : NoNesting page)
    {st : State} {b : Ref} {rest : List Ref} (h0 : Inv0 page st (b :: rest))
    (h1 : Inv1 page st) (cls : String) (html : List Markup) :
    Inv1 page (st.write b cls html) where
  par := by
    intro j hj pp hpp
    have hb : b ∈ querySelectorAll page := h0.blocks b (List.mem_cons_self _ _)
    obtain ⟨t, ht, hp, hr⟩ := h1.par j hj pp hpp
    rcases rewriteList_mem_subtrees b cls (toNodes html) _ t ht with hin | hout
    · have hne : t.ref ≠ b := by
        intro e
        exact block_inside_absurd hwf hnn h0 ht (e ▸ hb) hj (mem_refsList_of_hasRoot hr)
      exact ⟨_, hin, by rw [Node.rewrite_ref, hp], hasRoot_rewrite_childNodes _ _ _ hne hr⟩
    · exfalso
      obtain ⟨tb, htb, hbr, hs⟩ := subtrees_removedList_inside b hout
      exact parent_inside_absurd hwf hnn h0 h1 htb (hbr ▸ hb) hj hpp hs hp
  gpar := by
    intro j hj pp gg hpp hgg
    have hb : b ∈ querySelectorAll page := h0.blocks b (List.mem_cons_self _ _)
    obtain ⟨t, ht, hp, hr⟩ := h1.gpar j hj pp gg hpp hgg
    obtain ⟨c, hc, hcp⟩ := hasRoot_iff.1 hr
    rcases rewriteList_mem_subtrees b cls (toNodes html) _ t ht with hin | hout
    · have hne : t.ref ≠ b := by
        intro e
        exact parent_inside_absurd hwf hnn h0 h1 ht (e ▸ hb) hj hpp
          (mem_subtreesList_of_mem hc) hcp
      exact ⟨_, hin, by rw [Node.rewrite_ref, hp], hasRoot_rewrite_childNodes _ _ _ hne hr⟩
    · exfalso
      obtain ⟨tb, htb, hbr, hs⟩ := subtrees_removedList_inside b hout
      exact parent_inside_absurd hwf hnn h0 h1 htb (hbr ▸ hb) hj hpp
        (child_mem_subtreesList hs hc) hcp
  clean := by
    intro j hj t ht htj
    have hb : b ∈ querySelectorAll page := h0.blocks b (List.mem_cons_self _ _)
    rcases subtreesList_rewrite b cls (toNodes html) _ t ht with hn | ⟨s, hs, e⟩
    · have : j ∈ refsList (toNodes html) := htj ▸ ref_mem_refsList hn
      exact absurd this (isPage_not_mem_toNodes (hwf.isPage_block hj) html)
    · subst e
      rw [Node.rewrite_ref] at htj
      by_cases hsb : s.ref = b
      · intro r hr
        exact isScript_engine (Node.rewrite_childNodes_of_ref b cls _ hsb r hr)
      · have hnb : b ∉ s.refs := by
          intro hin
          rw [Node.refs_eq] at hin
          rcases List.mem_cons.1 hin with e | hin
          · exact hsb e.symm
          · exact block_inside_absurd hwf hnn h0 hs (htj ▸ hj) hb hin
        rw [Node.rewrite_eq_self b cls _ s hnb]
        exact h1.clean j hj s hs htj

/-- One step keeps both invariants on a page without nested blocks. -/
theorem Inv1.afterStep {page : List Node} (hwf : WellFormed page) (hnn : NoNesting page)
    (hl : Highlighter) (st : State) (b : Ref) (rest : List Ref)
    (h : Inv0 page st (b :: rest) ∧ Inv1 page st) :
    Inv0 page (decorateBlock hl st b).1 rest ∧ Inv1 page (decorateBlock hl st b).1 := by
  refine ⟨Inv0.step hwf hl st b rest h.1, ?_⟩
  refine decorateBlock_state hl st b (fun s => Inv1 page s) (h.2.made _) ?_
  intro pre parent hpre _ st1 e
  have h0 : Inv0 page { st with created := st.created + 3 } (b :: rest) :=
    h.1.of_eq rfl rfl rfl
  have h0' : Inv0 page st1 (b :: rest) := by
    rw [e]; exact h0.insert hwf st.created parent pre
  have h1' : Inv1 page st1 := by
    rw [e]; exact Inv1.afterInsert hwf hnn h0 (h.2.made _) _ _ _ hpre
  exact ⟨h1'.afterCall b, fun cls html => Inv1.afterWrite hwf hnn (h0'.called b) (h1'.afterCall b) cls html⟩

/-- Both invariants hold of the state the run ends in. -/
theorem Inv1.atEnd {page : List Node} (hwf : WellFormed page) (hnn : NoNesting page)
    (hl : Highlighter) :
    ∃ rest, (Inv0 page (onDOMContentLoaded hl page).1 rest
        ∧ Inv1 page (onDOMContentLoaded hl page).1)
      ∧ ((onDOMContentLoaded hl page).2 = none → rest = []) :=
  forEach_invariant (decorateBlock hl) (fun s rest => Inv0 page s rest ∧ Inv1 page s)
    (Inv1.afterStep hwf hnn hl) _ _ ⟨Inv0.init hwf, Inv1.atStart hwf⟩

/-! ## Counting the wrappers -/

theorem Node.isWrapper_insertBefore (g : Ref) (w : Node) (p : Ref) (n : Node) :
    (Node.insertBefore g w p n).isWrapper = n.isWrapper := by
  cases n with
  | element r t c a kids => simp only [Node.insertBefore]; split <;> rfl
  | text r d => rfl

theorem Node.isWrapper_rewrite (b : Ref) (cls : String) (new : List Node) (hb : b.isScript = false)
    (n : Node) : (Node.rewrite b cls new n).isWrapper = n.isWrapper := by
  cases n with
  | element r t c a kids =>
    simp only [Node.rewrite]
    split
    · next h => subst h; simp [Node.isWrapper, hb]
    · rfl
  | text r d => rfl

theorem Node.isWrapper_isScript {n : Node} (h : n.isWrapper = true) : n.ref.isScript = true := by
  simp only [Node.isWrapper, Bool.and_eq_true] at h
  exact h.1.1

theorem countP_isWrapper_eq_zero {ns : List Node} (h : ∀ r ∈ refsList ns, r.isScript = false) :
    (subtreesList ns).countP Node.isWrapper = 0 := by
  rw [List.countP_eq_zero]
  intro t ht hw
  have := h t.ref (ref_mem_refsList ht)
  rw [Node.isWrapper_isScript hw] at this
  cases this

theorem copyWrapper_countP (n : Nat) (text : String) :
    (copyWrapper n text).subtrees.countP Node.isWrapper = 1 := by
  rfl

section count
variable (g : Ref) (w : Node) (p : Ref)

mutual
/-- An insertion adds one wrapper at each element `g` with a child `p`. -/
theorem Node.countP_insertBefore (hw : w.subtrees.countP Node.isWrapper = 1) : ∀ n : Node,
    (Node.insertBefore g w p n).subtrees.countP Node.isWrapper =
      n.subtrees.countP Node.isWrapper
        + n.subtrees.countP (fun s => decide (s.ref = g) && hasRoot p s.childNodes)
  | .element r tg c a kids => by
    have ih := countP_insertBeforeList hw kids
    rw [Node.subtrees_eq, Node.insertBefore_childNodes, List.countP_cons,
      Node.isWrapper_insertBefore]
    simp only [Node.subtrees, List.countP_cons, Node.childNodes_element, Node.ref_element]
    by_cases hr : r = g
    · simp only [hr, if_true, decide_True, Bool.true_and]
      obtain ⟨x, y, h1, h2⟩ := subtreesList_insertAt w p (insertBeforeList g w p kids)
      rw [h2, hasRoot_insertBeforeList]
      rw [h1, List.countP_append] at ih
      simp only [List.countP_append]
      by_cases hk : hasRoot p kids = true
      · simp only [hk, if_true, hw]; omega
      · simp only [hk, if_false, List.countP_nil, Bool.false_eq_true]; omega
    · simp only [hr, if_false, decide_False, Bool.false_and, Bool.false_eq_true]
      omega
  | .text r d => by
    simp [Node.insertBefore, Node.subtrees, List.countP_cons, hasRoot]
theorem countP_insertBeforeList (hw : w.subtrees.countP Node.isWrapper = 1) :
    ∀ ns : List Node,
    (subtreesList (insertBeforeList g w p ns)).countP Node.isWrapper =
      (subtreesList ns).countP Node.isWrapper
        + (subtreesList ns).countP (fun s => decide (s.ref = g) && hasRoot p s.childNodes)
  | [] => by simp [insertBeforeList, subtreesList]
  | n :: ns => by
    have h1 := Node.countP_insertBefore hw n
    have h2 := countP_insertBeforeList hw ns
    simp only [insertBeforeList, subtreesList, List.countP_append]
    omega
end

end count

/-- A reference that occurs once, as a child of an element `g`, gives one place of
insertion. -/
theorem countP_site_eq_one {ns : List Node} {g p : Ref} {t : Node}
    (hc : (refsList ns).count p ≤ 1) (ht : t ∈ subtreesList ns) (hg : t.ref = g)
    (hr : hasRoot p t.childNodes = true) :
    (subtreesList ns).countP (fun s => decide (s.ref = g) && hasRoot p s.childNodes) = 1 := by
  have h1 : 0 < (subtreesList ns).countP
      (fun s => decide (s.ref = g) && hasRoot p s.childNodes) :=
    List.countP_pos_iff.2 ⟨t, ht, by simp [hg, hr]⟩
  have h2 : (subtreesList ns).countP (fun s => decide (s.ref = g) && hasRoot p s.childNodes)
      ≤ (subtreesList ns).countP (fun s => hasRoot p s.childNodes) :=
    List.countP_mono_left (fun s _ h => by
      simp only [Bool.and_eq_true] at h; exact h.2)
  have h3 := parentsList_count p ns
  rw [← List.countP_eq_length_filter] at h3
  omega

section countRewrite
variable (b : Ref) (cls : String) (new : List Node)

mutual
/-- The engine's write neither adds nor removes a wrapper when none lies inside the block. -/
theorem Node.countP_rewrite (hb : b.isScript = false)
    (hnew : ∀ r ∈ refsList new, r.isScript = false) :
    ∀ n : Node, (∀ r ∈ refsList (n.removed b), r.isScript = false) →
    (Node.rewrite b cls new n).subtrees.countP Node.isWrapper = n.subtrees.countP Node.isWrapper
  | .element r tg c a kids, h => by
    by_cases hr : r = b
    · simp only [Node.removed, hr, if_true] at h
      simp only [Node.rewrite, hr, if_true, Node.subtrees, List.countP_cons,
        countP_isWrapper_eq_zero hnew, countP_isWrapper_eq_zero h]
      simp [Node.isWrapper, hb]
    · simp only [Node.removed, hr, if_false] at h
      have ih := countP_rewriteList hb hnew kids h
      simp only [Node.rewrite, hr, if_false, Node.subtrees, List.countP_cons, ih]
      rfl
  | .text r d, _ => rfl
theorem countP_rewriteList (hb : b.isScript = false)
    (hnew : ∀ r ∈ refsList new, r.isScript = false) : ∀ ns : List Node,
    (∀ r ∈ refsList (removedList b ns), r.isScript = false) →
      (subtreesList (rewriteList b cls new ns)).countP Node.isWrapper
        = (subtreesList ns).countP Node.isWrapper
  | [], _ => rfl
  | n :: ns, h => by
    simp only [removedList, refsList_append, List.mem_append] at h
    simp only [rewriteList, subtreesList, List.countP_append,
      Node.countP_rewrite hb hnew n (fun r hr => h r (Or.inl hr)),
      countP_rewriteList hb hnew ns (fun r hr => h r (Or.inr hr))]
end

end countRewrite

theorem wrapperNodes_length (ns : List Node) :
    (wrapperNodes ns).length = (subtreesList ns).countP Node.isWrapper := by
  rw [wrapperNodes, List.countP_eq_length_filter]

/-! ## Pages on which the run cannot fail -/

theorem parentOfList_of_parentNode {page : List Node} {r p : Ref}
    (h : parentNode page [] r = .element p) : parentOfList r page = some p := by
  unfold parentNode at h
  split at h
  · cases h
  · split at h
    · next e => rw [e]; exact congrArg some (Parent.element.inj h)
    · simp [parentOfList] at h

theorem ParentsAccept.parents {page : List Node} (h : ParentsAccept page) {b : Ref}
    (hb : b ∈ querySelectorAll page) :
    ∃ pp gg, parentOfList b page = some pp ∧ parentOfList pp page = some gg := by
  have := h b hb
  unfold elementParents at this
  split at this
  · next pre h1 =>
    split at this
    · next parent h2 =>
      exact ⟨pre, parent, parentOfList_of_parentNode h1, parentOfList_of_parentNode h2⟩
    · cases this
  · cases this

theorem Inv2.initially {page : List Node} (hwf : WellFormed page) :
    Inv2 page ⟨page, [], 0, []⟩ (querySelectorAll page) where
  count := by
    rw [wrapperNodes_length, countP_isWrapper_eq_zero]
    · simp
    · exact fun r hr => isScript_eq_false_of_isPage (hwf.2 r hr)
  shape := by simp

theorem plainHighlighter_total : ∀ d e r, plainHighlighter d e r ≠ .threw := by
  intro d e r
  unfold plainHighlighter
  split
  · split <;> simp
  · simp

/-- The two lookups of a step succeed on a page whose blocks have accepting parents. -/
theorem safe_lookups {page : List Node} (hwf : WellFormed page) (hpa : ParentsAccept page)
    {st : State} {b : Ref} {rest : List Ref} (h0 : Inv0 page st (b :: rest))
    (h1 : Inv1 page st) :
    ∃ pp gg, parentOfList b page = some pp ∧ parentOfList pp page = some gg
      ∧ parentNode st.document st.detached b = .element pp
      ∧ parentNode st.document st.detached pp = .element gg := by
  have hb : b ∈ querySelectorAll page := h0.blocks b (List.mem_cons_self _ _)
  obtain ⟨pp, gg, hpp, hgg⟩ := hpa.parents hb
  exact ⟨pp, gg, hpp, hgg, Inv1.parentNode_block hwf h0 h1 hb hpp,
    Inv1.parentNode_parent hwf h0 h1 hb hpp hgg⟩

theorem safe_ok {page : List Node} (hwf : WellFormed page) (hpa : ParentsAccept page)
    {hl : Highlighter} (hhl : ∀ d e r, hl d e r ≠ .threw) (st : State) (b : Ref)
    (rest : List Ref) (h : (Inv0 page st (b :: rest) ∧ Inv1 page st) ∧ Inv2 page st (b :: rest)) :
    (decorateBlock hl st b).2 = none := by
  obtain ⟨pp, gg, _, _, h1, h2⟩ := safe_lookups hwf hpa h.1.1 h.1.2
  exact decorateBlock_ok hhl h1 h2

theorem Inv2.preserved {page : List Node} (hwf : WellFormed page) (hnn : NoNesting page)
    (hpa : ParentsAccept page) {hl : Highlighter} (hhl : ∀ d e r, hl d e r ≠ .threw) (st : State)
    (b : Ref) (rest : List Ref)
    (h : (Inv0 page st (b :: rest) ∧ Inv1 page st) ∧ Inv2 page st (b :: rest)) :
    (Inv0 page (decorateBlock hl st b).1 rest ∧ Inv1 page (decorateBlock hl st b).1)
      ∧ Inv2 page (decorateBlock hl st b).1 rest := by
  refine ⟨Inv1.afterStep hwf hnn hl st b rest h.1, ?_⟩
  obtain ⟨⟨h0, h1⟩, h2⟩ := h
  have hb : b ∈ querySelectorAll page := h0.blocks b (List.mem_cons_self _ _)
  obtain ⟨pp, gg, hpp, hgg, l1, l2⟩ := safe_lookups hwf hpa h0 h1
  rw [decorateBlock_of_parents l1 l2]
  have h0m : Inv0 page { st with created := st.created + 3 } (b :: rest) := h0.of_eq rfl rfl rfl
  have h0i := h0m.insert hwf st.created gg pp
  have h1i := Inv1.afterInsert hwf hnn h0m (h1.made (st.created + 3)) st.created
    (textContent st.document st.detached b) gg l1
  -- the insertion adds one wrapper to the document
  have hcount : (wrapperNodes (insertBeforeList gg
      (copyWrapper st.created (textContent st.document st.detached b)) pp st.document)).length
        = (wrapperNodes st.document).length + 1 := by
    obtain ⟨t, ht, htg, hr⟩ := h1.gpar b hb pp gg hpp hgg
    rw [wrapperNodes_length, wrapperNodes_length,
      countP_insertBeforeList _ _ _ (copyWrapper_countP _ _),
      countP_site_eq_one (h0.count_document_le (hwf.isPage_parent hpp)) ht htg hr]
  have hc := h2.count
  have hs := h2.shape
  simp only [List.length_cons] at hc
  simp only [List.flatMap_cons, stepsFor] at hs
  have hshape : ∀ tr : List Event,
      (tr ++ [Event.inserted b (copyWrapper st.created (textContent st.document st.detached b))
          gg pp] ++ [Event.highlighted b]).map Event.shape
        = tr.map Event.shape ++ [(b, true), (b, false)] := by
    intro tr; simp [Event.shape]
  simp only [highlightBlock]
  split
  · next e => exact absurd e (hhl _ _ _)
  · constructor
    · simp only [State.insertBefore]
      rw [hcount]; omega
    · simp only [State.insertBefore]
      rw [hshape, List.append_assoc]
      exact hs
  · next cls html _ =>
    constructor
    · simp only [State.write, State.insertBefore]
      have hclean : ∀ r ∈ refsList (removedList b (insertBeforeList gg
          (copyWrapper st.created (textContent st.document st.detached b)) pp st.document)),
          r.isScript = false := by
        intro r hr
        obtain ⟨s, hs, hrs⟩ := mem_refsList_iff.1 hr
        obtain ⟨tb, htb, hbr, hsb⟩ := removedList_inside b _ s hs
        exact h1i.clean b hb tb htb hbr r (mem_refsList_iff.2 ⟨s, hsb, hrs⟩)
      rw [wrapperNodes_length, countP_rewriteList b cls _
        (isScript_eq_false_of_isPage (hwf.isPage_block hb)) (fun r hr => isScript_engine hr) _
        hclean, ← wrapperNodes_length, hcount]
      omega
    · simp only [State.write, State.insertBefore]
      rw [hshape, List.append_assoc]
      exact hs

/-- On a well-formed page without nested blocks whose blocks have accepting parents, with a
highlighter that does not throw, the run ends without exception and all three invariants hold
of its last state. -/
theorem Inv2.atLast {page : List Node} (hwf : WellFormed page) (hnn : NoNesting page)
    (hpa : ParentsAccept page) {hl : Highlighter} (hhl : ∀ d e r, hl d e r ≠ .threw) :
    (onDOMContentLoaded hl page).2 = none
      ∧ (Inv0 page (onDOMContentLoaded hl page).1 [] ∧ Inv1 page (onDOMContentLoaded hl page).1)
      ∧ Inv2 page (onDOMContentLoaded hl page).1 [] :=
  forEach_ok (decorateBlock hl)
    (fun s rest => (Inv0 page s rest ∧ Inv1 page s) ∧ Inv2 page s rest)
    (Inv2.preserved hwf hnn hpa hhl) (safe_ok hwf hpa hhl) _ _
    ⟨⟨Inv0.init hwf, Inv1.atStart hwf⟩, Inv2.initially hwf⟩

/-! ## The run only adds wrappers and rewrites blocks -/

theorem withoutScriptList_insertAt (w : Node) (p : Ref) (hw : w.ref.isScript = true)
    (ns : List Node) : withoutScriptList (insertAt w p ns) = withoutScriptList ns := by
  induction ns with
  | nil => rfl
  | cons m ms ih =>
    simp only [insertAt]
    split
    · simp [withoutScriptList, hw]
    · simp only [withoutScriptList, ih]

mutual
theorem Node.withoutScript_insertBefore (g : Ref) (w : Node) (p : Ref)
    (hw : w.ref.isScript = true) :
    ∀ n : Node, (Node.insertBefore g w p n).withoutScript = n.withoutScript
  | .element r tg c a kids => by
    have ih := withoutScriptList_insertBefore g w p hw kids
    simp only [Node.insertBefore]
    split
    · simp only [Node.withoutScript, withoutScriptList_insertAt w p hw, ih]
    · simp only [Node.withoutScript, ih]
  | .text r d => rfl
theorem withoutScriptList_insertBefore (g : Ref) (w : Node) (p : Ref)
    (hw : w.ref.isScript = true) :
    ∀ ns : List Node, withoutScriptList (insertBeforeList g w p ns) = withoutScriptList ns
  | [] => rfl
  | n :: ns => by
    simp only [insertBeforeList, withoutScriptList, Node.insertBefore_ref,
      Node.withoutScript_insertBefore g w p hw n, withoutScriptList_insertBefore g w p hw ns]
end

mutual
theorem Node.blank_withoutScript_rewrite (blocks : List Ref) (b : Ref) (cls : String)
    (new : List Node) (hb : b ∈ blocks) :
    ∀ n : Node, ((Node.rewrite b cls new n).withoutScript).blank blocks
      = (n.withoutScript).blank blocks
  | .element r tg c a kids => by
    by_cases hr : r = b
    · subst hr
      simp [Node.rewrite, Node.withoutScript, Node.blank, hb]
    · have ih := blankList_withoutScript_rewrite blocks b cls new hb kids
      simp only [Node.rewrite, hr, if_false, Node.withoutScript, Node.blank, ih]
  | .text r d => rfl
theorem blankList_withoutScript_rewrite (blocks : List Ref) (b : Ref) (cls : String)
    (new : List Node) (hb : b ∈ blocks) :
    ∀ ns : List Node, blankList blocks (withoutScriptList (rewriteList b cls new ns))
      = blankList blocks (withoutScriptList ns)
  | [] => rfl
  | n :: ns => by
    have h1 := Node.blank_withoutScript_rewrite blocks b cls new hb n
    have h2 := blankList_withoutScript_rewrite blocks b cls new hb ns
    simp only [rewriteList, withoutScriptList, Node.rewrite_ref]
    split
    · exact h2
    · simp only [blankList, h1, h2]
end

mutual
theorem Node.withoutScript_eq_self : ∀ n : Node, (∀ r ∈ n.refs, r.isScript = false) →
    n.withoutScript = n
  | .element r tg c a kids, h => by
    simp only [Node.withoutScript]
    rw [withoutScriptList_eq_self kids (fun x hx => h x (by
      simp only [Node.refs, List.mem_cons]; exact Or.inr hx))]
  | .text r d, _ => rfl
theorem withoutScriptList_eq_self : ∀ ns : List Node, (∀ r ∈ refsList ns, r.isScript = false) →
    withoutScriptList ns = ns
  | [], _ => rfl
  | n :: ns, h => by
    simp only [refsList, List.mem_append] at h
    have h0 : n.ref.isScript = false := h _ (Or.inl (by
      rw [Node.refs_eq]; exact List.mem_cons_self _ _))
    simp only [withoutScriptList, h0, Bool.false_eq_true, if_false,
      Node.withoutScript_eq_self n (fun r hr => h r (Or.inl hr)),
      withoutScriptList_eq_self ns (fun r hr => h r (Or.inr hr))]
end

/-- Without the nodes the script created, and the class and contents of the blocks left out of
account, the document stays what it was through every step of the run. -/
theorem frame_step (page : List Node) (hl : Highlighter) (st : State) (b : Ref)
    (rest : List Ref)
    (h : (∀ j ∈ b :: rest, j ∈ querySelectorAll page)
      ∧ blankList (querySelectorAll page) (withoutScriptList st.document)
        = blankList (querySelectorAll page) (withoutScriptList page)) :
    (∀ j ∈ rest, j ∈ querySelectorAll page)
      ∧ blankList (querySelectorAll page) (withoutScriptList (decorateBlock hl st b).1.document)
        = blankList (querySelectorAll page) (withoutScriptList page) := by
  refine ⟨fun j hj => h.1 j (List.mem_cons_of_mem _ hj), ?_⟩
  refine decorateBlock_state hl st b
    (fun s => blankList (querySelectorAll page) (withoutScriptList s.document)
      = blankList (querySelectorAll page) (withoutScriptList page)) h.2 ?_
  intro pre parent _ _ st1 e
  have key : blankList (querySelectorAll page) (withoutScriptList st1.document)
      = blankList (querySelectorAll page) (withoutScriptList page) := by
    rw [e]
    simp only [State.insertBefore]
    rw [withoutScriptList_insertBefore _ _ _ (by rw [copyWrapper_ref]; rfl)]
    exact h.2
  refine ⟨key, fun cls html => ?_⟩
  simp only [State.write]
  rw [blankList_withoutScript_rewrite _ _ _ _ (h.1 b (List.mem_cons_self _ _))]
  exact key

theorem frame_final {page : List Node} (hwf : WellFormed page) (hl : Highlighter) :
    blankList (querySelectorAll page)
        (withoutScriptList (onDOMContentLoaded hl page).1.document)
      = blankList (querySelectorAll page) page := by
  obtain ⟨_, h, _⟩ := forEach_invariant (decorateBlock hl)
    (fun s rest => (∀ j ∈ rest, j ∈ querySelectorAll page)
      ∧ blankList (querySelectorAll page) (withoutScriptList s.document)
        = blankList (querySelectorAll page) (withoutScriptList page))
    (frame_step page hl) (querySelectorAll page) ⟨page, [], 0, []⟩ ⟨fun _ h => h, rfl⟩
  have e := h.2
  rw [withoutScriptList_eq_self page
    (fun r hr => isScript_eq_false_of_isPage (hwf.2 r hr))] at e
  exact e

theorem parentNode_page {page : List Node} (hwf : WellFormed page) {b pp : Ref}
    (hpp : parentOfList b page = some pp) : parentNode page [] b = .element pp := by
  obtain ⟨t, ht, hp, hr⟩ := parentOfList_sound b page pp hpp
  rw [parentNode_eq (hwf.count_le b) ht hr, hp]

theorem highlighterCalls_eq (tr : List Event) :
    highlighterCalls tr = ((tr.map Event.shape).filter (fun x => !x.2)).map Prod.fst := by
  induction tr with
  | nil => rfl
  | cons e es ih => cases e <;> simp [highlighterCalls, Event.shape, ih]

theorem insertedFor_eq (tr : List Event) :
    insertedFor tr = ((tr.map Event.shape).filter (fun x => x.2)).map Prod.fst := by
  induction tr with
  | nil => rfl
  | cons e es ih => cases e <;> simp [insertedFor, Event.shape, ih]

theorem calls_of_steps (bs : List Ref) :
    ((bs.flatMap stepsFor).filter (fun x => !x.2)).map Prod.fst = bs := by
  induction bs with
  | nil => rfl
  | cons b bs ih => simp [stepsFor, List.flatMap_cons, List.filter_cons, ih]

theorem insertions_of_steps (bs : List Ref) :
    ((bs.flatMap stepsFor).filter (fun x => x.2)).map Prod.fst = bs := by
  induction bs with
  | nil => rfl
  | cons b bs ih => simp [stepsFor, List.flatMap_cons, List.filter_cons, ih]

/-! ## Previous siblings -/

theorem adjacent_cons {a b z : Ref} {l : List Ref} (h : adjacent a b l = true) :
    adjacent a b (z :: l) = true := by
  cases l with
  | nil => simp [adjacent] at h
  | cons y rest => simp only [adjacent, Bool.or_eq_true]; exact Or.inr h

theorem mem_of_adjacent {a b : Ref} : ∀ {l : List Ref}, adjacent a b l = true → a ∈ l
  | [], h => by simp [adjacent] at h
  | [_], h => by simp [adjacent] at h
  | x :: y :: rest, h => by
    simp only [adjacent, Bool.or_eq_true, Bool.and_eq_true, decide_eq_true_eq] at h
    rcases h with ⟨hx, _⟩ | h
    · exact hx ▸ List.mem_cons_self _ _
    · exact List.mem_cons_of_mem _ (mem_of_adjacent h)

theorem adjacent_insertAt (w : Node) (p : Ref) {a q : Ref} (hq : p ≠ q) :
    ∀ ns : List Node, adjacent a q (ns.map Node.ref) = true →
      adjacent a q ((insertAt w p ns).map Node.ref) = true
  | [], h => by simp [adjacent] at h
  | [x], h => by simp [adjacent] at h
  | x :: y :: rest, h => by
    simp only [insertAt]
    split
    · exact adjacent_cons h
    · simp only [List.map_cons, adjacent, Bool.or_eq_true, Bool.and_eq_true,
        decide_eq_true_eq] at h
      rcases h with ⟨hx, hy⟩ | h
      · have hyp : ¬ y.ref = p := fun e => hq (e.symm.trans hy)
        rw [if_neg hyp]
        simp [adjacent, hx, hy]
      · have ih := adjacent_insertAt w p hq (y :: rest) (by simpa using h)
        simp only [List.map_cons]
        exact adjacent_cons ih

theorem adjacent_insertAt_new (w : Node) (p : Ref) :
    ∀ ns : List Node, hasRoot p ns = true →
      adjacent w.ref p ((insertAt w p ns).map Node.ref) = true
  | [], h => by simp [hasRoot] at h
  | x :: rest, h => by
    simp only [insertAt]
    split
    · next hx => simp [adjacent, hx]
    · next hx =>
      have h' : hasRoot p rest = true := by
        simpa [hasRoot, hx] using h
      simp only [List.map_cons]
      exact adjacent_cons (adjacent_insertAt_new w p rest h')

theorem isPreviousSibling_iff {nodes : List Node} {a b : Ref} :
    isPreviousSibling nodes a b = true
      ↔ ∃ t ∈ subtreesList nodes, adjacent a b (t.childNodes.map Node.ref) = true := by
  simp [isPreviousSibling]

/-- A later insertion before another node leaves a previous sibling in place. -/
theorem isPreviousSibling_insertBefore (g : Ref) (w : Node) (p : Ref) {nodes : List Node}
    {a q : Ref} (hq : p ≠ q) (h : isPreviousSibling nodes a q = true) :
    isPreviousSibling (insertBeforeList g w p nodes) a q = true := by
  obtain ⟨t, ht, hadj⟩ := isPreviousSibling_iff.1 h
  refine isPreviousSibling_iff.2 ⟨_, insertBeforeList_mem_subtrees g w p _ t ht, ?_⟩
  rw [Node.insertBefore_childNodes]
  have h' : adjacent a q ((insertBeforeList g w p t.childNodes).map Node.ref) = true := by
    rw [insertBeforeList_map_ref]; exact hadj
  split
  · exact adjacent_insertAt w p hq _ h'
  · exact h'

/-- The node inserted is the previous sibling of the reference node. -/
theorem isPreviousSibling_new (g : Ref) (w : Node) (p : Ref) {nodes : List Node} {t : Node}
    (ht : t ∈ subtreesList nodes) (hg : t.ref = g) (hr : hasRoot p t.childNodes = true) :
    isPreviousSibling (insertBeforeList g w p nodes) w.ref p = true := by
  refine isPreviousSibling_iff.2 ⟨_, insertBeforeList_mem_subtrees g w p _ t ht, ?_⟩
  rw [Node.insertBefore_childNodes, if_pos hg]
  exact adjacent_insertAt_new w p _ (by rw [hasRoot_insertBeforeList]; exact hr)

/-- The engine's write leaves a script node in place as previous sibling, when no script node
lies inside the block. -/
theorem isPreviousSibling_rewrite (b : Ref) (cls : String) (new : List Node)
    {nodes : List Node} {a q : Ref} (ha : a.isScript = true)
    (hclean : ∀ t ∈ subtreesList nodes, t.ref = b →
      ∀ r ∈ refsList t.childNodes, r.isScript = false)
    (h : isPreviousSibling nodes a q = true) :
    isPreviousSibling (rewriteList b cls new nodes) a q = true := by
  obtain ⟨t, ht, hadj⟩ := isPreviousSibling_iff.1 h
  have hat : a ∈ refsList t.childNodes := by
    have := mem_of_adjacent hadj
    obtain ⟨c, hc, hca⟩ := List.mem_map.1 this
    exact hca ▸ ref_mem_refsList (mem_subtreesList_of_mem hc)
  rcases rewriteList_mem_subtrees b cls new _ t ht with hin | hout
  · have hne : t.ref ≠ b := by
      intro e
      have := hclean t ht e a hat
      rw [ha] at this; cases this
    refine isPreviousSibling_iff.2 ⟨_, hin, ?_⟩
    rw [Node.rewrite_childNodes b cls new hne, rewriteList_map_ref]
    exact hadj
  · exfalso
    obtain ⟨tb, htb, hbr, hs⟩ := subtrees_removedList_inside b hout
    have : a ∈ refsList tb.childNodes := by
      apply (refs_sublist hs).subset
      rw [Node.refs_eq]; exact List.mem_cons_of_mem _ hat
    have := hclean tb htb hbr a this
    rw [ha] at this; cases this

/-! ## Where an insertion lands in document order -/

theorem refsList_insertAt_split (w : Node) (p : Ref) :
    ∀ ns : List Node, hasRoot p ns = true →
      ∃ x y, refsList ns = x ++ p :: y ∧ refsList (insertAt w p ns) = x ++ w.refs ++ p :: y
  | [], h => by simp [hasRoot] at h
  | m :: ms, h => by
    simp only [insertAt]
    split
    · next hm =>
      refine ⟨[], refsList m.childNodes ++ refsList ms, ?_, ?_⟩
      · simp [refsList, Node.refs_eq, hm]
      · simp [refsList, Node.refs_eq, hm]
    · next hm =>
      have h' : hasRoot p ms = true := by simpa [hasRoot, hm] using h
      obtain ⟨x, y, h1, h2⟩ := refsList_insertAt_split w p ms h'
      exact ⟨m.refs ++ x, y, by simp [refsList, h1], by simp [refsList, h2]⟩

theorem insertBeforeList_of_not_mem (g : Ref) (w : Node) {p : Ref} {ns : List Node}
    (h : p ∉ refsList ns) : insertBeforeList g w p ns = ns := by
  apply insertBeforeList_eq_self
  intro s hs _
  cases hr : hasRoot p s.childNodes with
  | false => rfl
  | true =>
    exfalso
    obtain ⟨c, hc, hcp⟩ := hasRoot_iff.1 hr
    exact h (hcp ▸ ref_mem_refsList (child_mem_subtreesList hs hc))

theorem Node.insertBefore_of_not_mem (g : Ref) (w : Node) {p : Ref} {n : Node}
    (h : p ∉ n.refs) : Node.insertBefore g w p n = n := by
  have := @insertBeforeList_of_not_mem g w p [n] (by simpa [refsList] using h)
  simpa [insertBeforeList] using this

theorem insertBeforeList_of_hasRoot (g : Ref) (w : Node) {p : Ref} {ns : List Node}
    (hc : (refsList ns).count p ≤ 1) (h : hasRoot p ns = true) :
    insertBeforeList g w p ns = ns := by
  apply insertBeforeList_eq_self
  intro s hs _
  cases hr : hasRoot p s.childNodes with
  | false => rfl
  | true => rw [not_hasRoot_of_child hc hs hr] at h; cases h

mutual
/-- An insertion before a node that occurs once puts the references of the new node right
before it in document order. -/
theorem Node.refs_insertBefore_split (g : Ref) (w : Node) (p : Ref) : ∀ n : Node,
    n.refs.count p ≤ 1 → (∃ t ∈ n.subtrees, t.ref = g ∧ hasRoot p t.childNodes = true) →
      ∃ x y, n.refs = x ++ p :: y ∧ (Node.insertBefore g w p n).refs = x ++ w.refs ++ p :: y
  | .element r tg c a kids, hc, ⟨t, ht, hg, hr⟩ => by
    have hck : (refsList kids).count p ≤ 1 := by
      simp only [Node.refs, List.count_cons] at hc; omega
    rw [Node.refs_eq (Node.insertBefore g w p _), Node.insertBefore_ref,
      Node.insertBefore_childNodes]
    simp only [Node.subtrees, List.mem_cons] at ht
    simp only [Node.refs, Node.ref_element, Node.childNodes_element]
    rcases ht with rfl | ht
    · simp only [Node.ref_element, Node.childNodes_element] at hg hr
      rw [if_pos hg, insertBeforeList_of_hasRoot g w hck hr]
      obtain ⟨x, y, h1, h2⟩ := refsList_insertAt_split w p kids hr
      exact ⟨r :: x, y, by simp [h1], by simp [h2]⟩
    · obtain ⟨x, y, h1, h2⟩ := refsList_insertBefore_split g w p kids hck ⟨t, ht, hg, hr⟩
      have hroot : hasRoot p (insertBeforeList g w p kids) = false := by
        rw [hasRoot_insertBeforeList]; exact not_hasRoot_of_child hck ht hr
      refine ⟨r :: x, y, by simp [h1], ?_⟩
      split
      · rw [insertAt_of_not_hasRoot w p hroot, h2]; simp
      · rw [h2]; simp
  | .text r d, _, ⟨t, ht, _, hr⟩ => by
    simp only [Node.subtrees, List.mem_singleton] at ht
    subst ht
    simp [hasRoot] at hr
theorem refsList_insertBefore_split (g : Ref) (w : Node) (p : Ref) : ∀ ns : List Node,
    (refsList ns).count p ≤ 1 →
      (∃ t ∈ subtreesList ns, t.ref = g ∧ hasRoot p t.childNodes = true) →
      ∃ x y, refsList ns = x ++ p :: y
        ∧ refsList (insertBeforeList g w p ns) = x ++ w.refs ++ p :: y
  | [], _, ⟨t, ht, _, _⟩ => by simp [subtreesList] at ht
  | n :: ns, hc, ⟨t, ht, hg, hr⟩ => by
    simp only [refsList, List.count_append] at hc
    simp only [subtreesList, List.mem_append] at ht
    simp only [refsList, insertBeforeList]
    obtain ⟨c, hcm, hcp⟩ := hasRoot_iff.1 hr
    rcases ht with ht | ht
    · have hp : p ∈ n.refs := by
        have := @ref_mem_refsList [n] c
          (child_mem_subtreesList (by simpa [subtreesList] using ht) hcm)
        simpa [refsList, hcp] using this
      have := List.count_pos_iff.2 hp
      have hn : p ∉ refsList ns := fun h => by
        have := List.count_pos_iff.2 h; omega
      obtain ⟨x, y, h1, h2⟩ := Node.refs_insertBefore_split g w p n (by omega) ⟨t, ht, hg, hr⟩
      rw [insertBeforeList_of_not_mem g w hn, h1, h2]
      exact ⟨x, y ++ refsList ns, by simp, by simp⟩
    · have hp : p ∈ refsList ns := hcp ▸ ref_mem_refsList (child_mem_subtreesList ht hcm)
      have := List.count_pos_iff.2 hp
      have hn : p ∉ n.refs := fun h => by
        have := List.count_pos_iff.2 h; omega
      obtain ⟨x, y, h1, h2⟩ :=
        refsList_insertBefore_split g w p ns (by omega) ⟨t, ht, hg, hr⟩
      rw [Node.insertBefore_of_not_mem g w hn, h1, h2]
      exact ⟨n.refs ++ x, y, by simp, by simp⟩
end

theorem append_cons_unique {α : Type} {x : α} :
    ∀ {l₁ l₁' l₂ l₂' : List α}, x ∉ l₁ → x ∉ l₁' → l₁ ++ x :: l₂ = l₁' ++ x :: l₂' →
      l₁ = l₁' ∧ l₂ = l₂'
  | [], [], _, _, _, _, h => by simpa using h
  | [], b :: l₁', _, _, _, h2, h => by
    simp only [List.nil_append, List.cons_append, List.cons.injEq] at h
    exact absurd (h.1 ▸ List.mem_cons_self _ _) h2
  | a :: l₁, [], _, _, h1, _, h => by
    simp only [List.nil_append, List.cons_append, List.cons.injEq] at h
    exact absurd (h.1 ▸ List.mem_cons_self _ _) h1
  | a :: l₁, b :: l₁', _, _, h1, h2, h => by
    simp only [List.cons_append, List.cons.injEq] at h
    obtain ⟨e1, e2⟩ := append_cons_unique (fun hx => h1 (List.mem_cons_of_mem _ hx))
      (fun hx => h2 (List.mem_cons_of_mem _ hx)) h.2
    exact ⟨by rw [h.1, e1], e2⟩

/-! ## Document order of the parents of the blocks -/

mutual
theorem Node.refs_infix : ∀ (n t : Node), t ∈ n.subtrees → ∃ x z, n.refs = x ++ t.refs ++ z
  | .element r tg c a kids, t, h => by
    simp only [Node.subtrees, List.mem_cons] at h
    rcases h with rfl | h
    · exact ⟨[], [], by simp⟩
    · obtain ⟨x, z, e⟩ := refsList_infix kids t h
      exact ⟨r :: x, z, by simp [Node.refs, e]⟩
  | .text r d, t, h => by
    simp only [Node.subtrees, List.mem_singleton] at h
    subst h
    exact ⟨[], [], by simp⟩
theorem refsList_infix : ∀ (ns : List Node) (t : Node), t ∈ subtreesList ns →
    ∃ x z, refsList ns = x ++ t.refs ++ z
  | [], t, h => by simp [subtreesList] at h
  | n :: ns, t, h => by
    simp only [subtreesList, List.mem_append] at h
    rcases h with h | h
    · obtain ⟨x, z, e⟩ := Node.refs_infix n t h
      exact ⟨x, z ++ refsList ns, by simp [refsList, e]⟩
    · obtain ⟨x, z, e⟩ := refsList_infix ns t h
      exact ⟨n.refs ++ x, z, by simp [refsList, e]⟩
end

/-- In document order a node comes after its ancestors. -/
theorem indexOf_lt_of_inside {ns : List Node} (hn : (refsList ns).Nodup) {t : Node}
    (ht : t ∈ subtreesList ns) {c : Ref} (hc : c ∈ refsList t.childNodes) :
    (refsList ns).indexOf t.ref < (refsList ns).indexOf c := by
  obtain ⟨x, z, e⟩ := refsList_infix ns t ht
  rw [e] at hn ⊢
  rw [Node.refs_eq] at hn ⊢
  have hd := List.nodup_append.1 (List.append_assoc _ _ _ ▸ hn)
  have hm : t.ref ∉ x := fun h => hd.2.2 h (by simp)
  have hcx : c ∉ x := fun h => hd.2.2 h (by simp [hc])
  have hct : c ≠ t.ref := by
    rintro rfl
    have := (List.nodup_append.1 hd.2.1).1
    exact (List.nodup_cons.1 this).1 hc
  rw [List.append_assoc, List.indexOf_append_of_not_mem hm,
    List.indexOf_append_of_not_mem hcx, List.cons_append, List.indexOf_cons_self,
    List.indexOf_cons_ne _ (Ne.symm hct)]
  omega

/-- In document order a node that comes after the root of a subtree, and is not in it, comes
after all of it. -/
theorem indexOf_lt_of_after {ns : List Node} (hn : (refsList ns).Nodup) {t : Node}
    (ht : t ∈ subtreesList ns) {y : Ref} (hyt : y ∉ t.refs)
    (hlt : (refsList ns).indexOf t.ref < (refsList ns).indexOf y) {x : Ref} (hx : x ∈ t.refs) :
    (refsList ns).indexOf x < (refsList ns).indexOf y := by
  obtain ⟨u, z, e⟩ := refsList_infix ns t ht
  rw [e] at hn hlt ⊢
  have hd := List.nodup_append.1 (List.append_assoc _ _ _ ▸ hn)
  have htu : t.ref ∉ u := fun h => hd.2.2 h (by simp [Node.refs_eq])
  have hxu : x ∉ u := fun h => hd.2.2 h (by simp [hx])
  have hyu : y ∉ u := by
    intro h
    rw [List.append_assoc, List.indexOf_append_of_not_mem htu, List.indexOf_append_of_mem h]
      at hlt
    have := List.indexOf_lt_length.2 h
    omega
  rw [List.append_assoc, List.indexOf_append_of_not_mem hxu,
    List.indexOf_append_of_not_mem hyu, List.indexOf_append_of_mem hx,
    List.indexOf_append_of_not_mem hyt]
  have := List.indexOf_lt_length.2 hx
  omega

theorem pairwise_indexOf {l s : List Ref} (hl : l.Nodup) (hs : s.Sublist l) :
    s.Pairwise (fun a b => l.indexOf a < l.indexOf b) := by
  refine List.Pairwise.sublist hs ?_
  rw [List.pairwise_iff_getElem]
  intro i j hi hj hij
  rw [List.indexOf_getElem hl, List.indexOf_getElem hl]
  exact hij

/-- A list of members of a list without repetition, in the order of that list, is what the
membership filter keeps of it. -/
theorem filter_mem_eq {l m : List Ref} (hl : l.Nodup) (hm : ∀ x ∈ m, x ∈ l)
    (hp : m.Pairwise (fun a b => l.indexOf a < l.indexOf b)) :
    l.filter (fun r => decide (r ∈ m)) = m := by
  haveI : IsAntisymm Ref (fun a b => l.indexOf a < l.indexOf b) :=
    ⟨fun a b h1 h2 => absurd h1 (Nat.lt_asymm h2)⟩
  have hmn : m.Nodup := hp.imp (fun h e => by rw [e] at h; exact Nat.lt_irrefl _ h)
  refine List.eq_of_perm_of_sorted ?_
    ((pairwise_indexOf hl (List.filter_sublist l)) : List.Sorted _ _) hp
  refine (List.perm_ext_iff_of_nodup (hl.filter _) hmn).2 (fun a => ?_)
  simp only [List.mem_filter, decide_eq_true_eq]
  exact ⟨fun h => h.2, fun h => ⟨hm a h, h⟩⟩

theorem subtreeRefs_parent {page : List Node} (hwf : WellFormed page) {t : Node}
    (ht : t ∈ subtreesList page) : subtreeRefs page t.ref = t.refs :=
  subtreeRefs_eq ht (hwf.count_le _)

/-- The parent found by the lookup, as a node of the page. -/
theorem parent_node {page : List Node} {b pp : Ref} (h : parentOfList b page = some pp) :
    ∃ t ∈ subtreesList page, t.ref = pp ∧ hasRoot b t.childNodes = true
      ∧ b ∈ refsList t.childNodes := by
  obtain ⟨t, ht, hp, hr⟩ := parentOfList_sound b page pp h
  exact ⟨t, ht, hp, hr, mem_refsList_of_hasRoot hr⟩

theorem mem_parentSubtreeRefs {page : List Node} (hwf : WellFormed page) {b pp : Ref}
    (h : parentOfList b page = some pp) {t : Node} (ht : t ∈ subtreesList page)
    (hp : t.ref = pp) {c : Ref} (hc : c ∈ t.refs) : c ∈ parentSubtreeRefs page b := by
  simp only [parentSubtreeRefs, h]
  rw [← hp, subtreeRefs_parent hwf ht]
  exact hc

/-- On a page with one block per parent no block lies inside another one. -/
theorem OneBlockPerParent.noNesting {page : List Node} (hwf : WellFormed page)
    (hop : OneBlockPerParent page) : NoNesting page := by
  intro b hb c hc hne hin
  obtain ⟨pp, hpp⟩ := block_parent hb
  obtain ⟨t, ht, hp, hr, _⟩ := parent_node hpp
  obtain ⟨s, hs, hsb⟩ := hasRoot_iff.1 hr
  have hsd : s ∈ subtreesList page := child_mem_subtreesList ht hs
  rw [← hsb, subtreeRefs_parent hwf hsd] at hin
  refine hop b hb c hc hne (mem_parentSubtreeRefs hwf hpp ht hp ?_)
  rw [Node.refs_eq]
  exact List.mem_cons_of_mem _ ((refs_sublist (mem_subtreesList_of_mem hs)).subset hin)

/-- On a page with one block per parent two blocks have two parents. -/
theorem OneBlockPerParent.parents_ne {page : List Node} (hwf : WellFormed page)
    (hop : OneBlockPerParent page) {b c : Ref} (hb : b ∈ querySelectorAll page)
    (hc : c ∈ querySelectorAll page) (hne : b ≠ c) {p q : Ref}
    (hp : parentOfList b page = some p) (hq : parentOfList c page = some q) : p ≠ q := by
  rintro rfl
  obtain ⟨t, ht, htp, _, hin⟩ := parent_node hq
  refine hop b hb c hc hne (mem_parentSubtreeRefs hwf hp ht htp ?_)
  rw [Node.refs_eq]; exact List.mem_cons_of_mem _ hin

/-- The parent of a later block comes later in document order. -/
theorem parents_indexOf_lt {page : List Node} (hwf : WellFormed page)
    (hop : OneBlockPerParent page) {i j : Ref} (hi : i ∈ querySelectorAll page)
    (hj : j ∈ querySelectorAll page)
    (hlt : (refsList page).indexOf i < (refsList page).indexOf j) {p q : Ref}
    (hp : parentOfList i page = some p) (hq : parentOfList j page = some q) :
    (refsList page).indexOf p < (refsList page).indexOf q := by
  have hne : i ≠ j := by rintro rfl; exact Nat.lt_irrefl _ hlt
  obtain ⟨ti, hti, htip, _, hii⟩ := parent_node hp
  obtain ⟨tj, htj, htjq, _, hjj⟩ := parent_node hq
  have hpq : p ≠ q := hop.parents_ne hwf hi hj hne hp hq
  have hpm : p ∈ refsList page := htip ▸ ref_mem_refsList hti
  have hqm : q ∈ refsList page := htjq ▸ ref_mem_refsList htj
  by_contra hcon
  have hqp : (refsList page).indexOf q < (refsList page).indexOf p := by
    have : (refsList page).indexOf p ≠ (refsList page).indexOf q :=
      fun e => hpq ((List.indexOf_inj hpm hqm).1 e)
    omega
  -- the parent of `i` is not inside the parent of `j`
  have hout : p ∉ tj.refs := by
    intro hin
    obtain ⟨s, hs, hsp⟩ := @exists_subtree_of_mem_refs [tj] p
      (by simpa [refsList] using hin)
    have hs' : s ∈ tj.subtrees := by simpa [subtreesList] using hs
    have hsd : s ∈ subtreesList page := subtrees_trans htj hs'
    have e : s = ti := subtree_unique hsd hti (hsp.trans htip.symm) (hwf.count_le _)
    subst e
    have : i ∈ tj.refs := by
      have h1 : i ∈ s.refs := by rw [Node.refs_eq]; exact List.mem_cons_of_mem _ hii
      have := (@refs_sublist [tj] s (by simpa [subtreesList] using hs')).subset h1
      simpa [refsList] using this
    exact hop j hj i hi (Ne.symm hne) (mem_parentSubtreeRefs hwf hq htj htjq this)
  have h1 : (refsList page).indexOf j < (refsList page).indexOf p :=
    indexOf_lt_of_after hwf.1 htj hout (htjq ▸ hqp)
      (by rw [Node.refs_eq]; exact List.mem_cons_of_mem _ hjj)
  have h2 : (refsList page).indexOf p < (refsList page).indexOf i := by
    have := indexOf_lt_of_inside hwf.1 hti hii
    rwa [htip] at this
  omega

/-- The parents of the blocks come in the page in the order of the blocks, and nothing else is
kept by the filter for script nodes and parents. -/
theorem parents_filter_init {page : List Node} (hwf : WellFormed page)
    (hop : OneBlockPerParent page) :
    (refsList page).filter
        (fun r => r.isScript || decide (r ∈ parentsOf page (querySelectorAll page)))
      = parentsOf page (querySelectorAll page) := by
  have hcongr : (refsList page).filter
        (fun r => r.isScript || decide (r ∈ parentsOf page (querySelectorAll page)))
      = (refsList page).filter
        (fun r => decide (r ∈ parentsOf page (querySelectorAll page))) := by
    apply List.filter_congr
    intro r hr
    rw [isScript_eq_false_of_isPage (hwf.2 r hr), Bool.false_or]
  rw [hcongr]
  apply filter_mem_eq hwf.1
  · intro x hx
    simp only [parentsOf, List.mem_filterMap] at hx
    obtain ⟨b, _, hb⟩ := hx
    obtain ⟨t, ht, hp, _⟩ := parent_node hb
    exact hp ▸ ref_mem_refsList ht
  · simp only [parentsOf]
    rw [List.pairwise_filterMap]
    refine (pairwise_indexOf hwf.1 (querySelectorAll_sublist page)).imp_of_mem ?_
    intro i j hi hj hlt p hp q hq
    exact parents_indexOf_lt hwf hop hi hj hlt hp hq

/-! ## Pages with one block per parent -/

theorem insertedWrappers_append (tr : List Event) (e : Event) :
    insertedWrappers (tr ++ [e]) = insertedWrappers tr ++ insertedWrappers [e] := by
  induction tr with
  | nil => simp [insertedWrappers]
  | cons x xs ih => cases x <;> simp [insertedWrappers, ih]

theorem mem_insertedWrappers {tr : List Event} {w : Node} (h : w ∈ insertedWrappers tr) :
    ∃ b g p, Event.inserted b w g p ∈ tr := by
  induction tr with
  | nil => simp [insertedWrappers] at h
  | cons x xs ih =>
    cases x with
    | inserted b w' g p =>
      simp only [insertedWrappers, List.mem_cons] at h
      rcases h with rfl | h
      · exact ⟨b, g, p, List.mem_cons_self _ _⟩
      · obtain ⟨b', g', p', hm⟩ := ih h
        exact ⟨b', g', p', List.mem_cons_of_mem _ hm⟩
    | highlighted b =>
      simp only [insertedWrappers] at h
      obtain ⟨b', g', p', hm⟩ := ih h
      exact ⟨b', g', p', List.mem_cons_of_mem _ hm⟩

/-- The wrappers inserted carry references of script nodes only. -/
theorem Inv0.isScript_wrappers {page : List Node} {st : State} {rest : List Ref}
    (h : Inv0 page st rest) {r : Ref}
    (hr : r ∈ (insertedWrappers st.trace).flatMap Node.refs) : r.isScript = true := by
  obtain ⟨w, hw, hrw⟩ := List.mem_flatMap.1 hr
  obtain ⟨b, g, p, hm⟩ := mem_insertedWrappers hw
  obtain ⟨_, n, e⟩ := h.payload b w g p hm
  rw [e, copyWrapper_refs] at hrw
  simp only [List.mem_cons, List.mem_singleton, List.not_mem_nil, or_false] at hrw
  rcases hrw with rfl | rfl | rfl <;> rfl

theorem isPage_of_mem_parentsOf {page : List Node} (hwf : WellFormed page) {rest : List Ref}
    {r : Ref} (h : r ∈ parentsOf page rest) : r.isPage = true := by
  simp only [parentsOf, List.mem_filterMap] at h
  obtain ⟨b, _, hb⟩ := h
  exact hwf.isPage_parent hb

theorem Inv3.atFirst {page : List Node} (hwf : WellFormed page) (hop : OneBlockPerParent page) :
    Inv3 page ⟨page, [], 0, []⟩ (querySelectorAll page) where
  adj := by intro b w g p hm; simp at hm
  nodup := hwf.nodup_blocks
  order := by simpa [insertedWrappers] using parents_filter_init hwf hop

theorem Inv3.afterCalling {page : List Node} {st : State} {rest : List Ref} (b : Ref)
    (h : Inv3 page st rest) :
    Inv3 page { st with trace := st.trace ++ [Event.highlighted b] } rest where
  adj := by
    intro b' w g p hm
    simp only [List.mem_append, List.mem_singleton] at hm
    rcases hm with hm | hm
    · exact h.adj b' w g p hm
    · cases hm
  nodup := h.nodup
  order := by
    have := h.order
    simp only [insertedWrappers_append, insertedWrappers, List.append_nil]
    exact this

/-- The insertion of a step keeps the invariant, the block of the step being counted as
decorated. -/
theorem Inv3.afterInserting {page : List Node} (hwf : WellFormed page)
    (hop : OneBlockPerParent page) {st : State} {b : Ref} {rest : List Ref}
    (h0 : Inv0 page st (b :: rest)) (h1 : Inv1 page st) (h3 : Inv3 page st (b :: rest))
    (n : Nat) (text : String) {pp gg : Ref} (hpp : parentOfList b page = some pp)
    (hgg : parentOfList pp page = some gg) :
    Inv3 page (State.insertBefore st b (copyWrapper n text) gg pp) rest where
  adj := by
    have hb : b ∈ querySelectorAll page := h0.blocks b (List.mem_cons_self _ _)
    intro b' w g p hm
    simp only [State.insertBefore, List.mem_append, List.mem_singleton] at hm
    rcases hm with hm | hm
    · obtain ⟨hb', hnr, hp, hs, hadj⟩ := h3.adj b' w g p hm
      have hne : b ≠ b' := fun e => hnr (e ▸ List.mem_cons_self _ _)
      exact ⟨hb', fun hin => hnr (List.mem_cons_of_mem _ hin), hp, hs,
        isPreviousSibling_insertBefore _ _ _ (hop.parents_ne hwf hb hb' hne hpp hp) hadj⟩
    · cases hm
      obtain ⟨t, ht, htg, hr⟩ := h1.gpar b hb pp gg hpp hgg
      exact ⟨hb, (List.nodup_cons.1 h3.nodup).1, hpp, rfl, isPreviousSibling_new _ _ _ ht htg hr⟩
  nodup := (List.nodup_cons.1 h3.nodup).2
  order := by
    have hb : b ∈ querySelectorAll page := h0.blocks b (List.mem_cons_self _ _)
    have hppp : pp.isPage = true := hwf.isPage_parent hpp
    have hcnt : (refsList st.document).count pp ≤ 1 := h0.count_document_le hppp
    obtain ⟨t, ht, htg, hr⟩ := h1.gpar b hb pp gg hpp hgg
    obtain ⟨x, y, e1, e2⟩ := refsList_insertBefore_split gg (copyWrapper n text) pp
      st.document hcnt ⟨t, ht, htg, hr⟩
    have hppx : pp ∉ x ∧ pp ∉ y := by
      rw [e1, List.count_append, List.count_cons_self] at hcnt
      constructor
      · intro hx; have := List.count_pos_iff.2 hx; omega
      · intro hy; have := List.count_pos_iff.2 hy; omega
    have hpar : parentsOf page (b :: rest) = pp :: parentsOf page rest := by
      simp [parentsOf, List.filterMap_cons, hpp]
    have hnotin : pp ∉ parentsOf page rest := by
      intro hin
      simp only [parentsOf, List.mem_filterMap] at hin
      obtain ⟨c, hc, hcp⟩ := hin
      have hne : b ≠ c := fun e => (List.nodup_cons.1 h3.nodup).1 (e ▸ hc)
      exact hop.parents_ne hwf hb (h0.blocks c (List.mem_cons_of_mem _ hc)) hne hpp hcp rfl
    have hold := h3.order
    rw [hpar, e1, List.filter_append, List.filter_cons] at hold
    simp only [List.mem_cons, true_or, decide_True, Bool.or_true, if_true] at hold
    have hsplit := append_cons_unique
      (fun hx => hppx.1 (List.mem_filter.1 hx).1)
      (fun hx => by
        have := h0.isScript_wrappers hx
        rw [isScript_eq_false_of_isPage hppp] at this; cases this) hold
    have hcong : ∀ l : List Ref, pp ∉ l →
        l.filter (fun r => r.isScript || decide (r ∈ parentsOf page rest))
          = l.filter (fun r => r.isScript || decide (r = pp ∨ r ∈ parentsOf page rest)) := by
      intro l hl
      apply List.filter_congr
      intro r hr
      have : r ≠ pp := fun e => hl (e ▸ hr)
      simp [this]
    simp only [State.insertBefore, insertedWrappers_append, insertedWrappers, List.flatMap_append,
      List.flatMap_cons, List.flatMap_nil, List.append_nil]
    rw [e2, List.filter_append, List.filter_append, List.filter_cons, hcong x hppx.1,
      hcong y hppx.2, hsplit.1, hsplit.2]
    have hw : (copyWrapper n text).refs.filter
        (fun r => r.isScript || decide (r ∈ parentsOf page rest)) = (copyWrapper n text).refs := by
      rw [copyWrapper_refs]; simp [Ref.isScript, List.filter_cons]
    rw [hw]
    simp [isScript_eq_false_of_isPage hppp, hnotin]

theorem Inv3.afterWriting {page : List Node} (hwf : WellFormed page)
    (hop : OneBlockPerParent page) {st : State} {b : Ref} {rest : List Ref}
    (h0 : Inv0 page st (b :: rest)) (h1 : Inv1 page st) (h3 : Inv3 page st rest)
    (cls : String) (html : List Markup) :
    Inv3 page (st.write b cls html) rest where
  adj := by
    have hb : b ∈ querySelectorAll page := h0.blocks b (List.mem_cons_self _ _)
    intro b' w g p hm
    obtain ⟨hb', hnr, hp, hs, hadj⟩ := h3.adj b' w g p hm
    exact ⟨hb', hnr, hp, hs,
      isPreviousSibling_rewrite b cls _ hs (fun t ht htb => h1.clean b hb t ht htb) hadj⟩
  nodup := h3.nodup
  order := by
    have hb : b ∈ querySelectorAll page := h0.blocks b (List.mem_cons_self _ _)
    have hnn := hop.noNesting hwf
    simp only [State.write]
    rw [filter_refsList_rewrite b cls (toNodes html)
      (fun r => r.isScript || decide (r ∈ parentsOf page rest))]
    · exact h3.order
    · intro r hr
      have he := toNodes_refs html r hr
      subst he
      simp only [Ref.isScript, Bool.false_or, decide_eq_false_iff_not]
      intro hin
      have := isPage_of_mem_parentsOf hwf hin
      simp [Ref.isPage] at this
    · intro r hr
      obtain ⟨s, hs, hrs⟩ := mem_refsList_iff.1 hr
      obtain ⟨tb, htb, hbr, hsb⟩ := removedList_inside b _ s hs
      have hin : r ∈ refsList tb.childNodes := mem_refsList_iff.2 ⟨s, hsb, hrs⟩
      rw [h1.clean b hb tb htb hbr r hin, Bool.false_or, decide_eq_false_iff_not]
      intro hpar
      simp only [parentsOf, List.mem_filterMap] at hpar
      obtain ⟨j, hj, hjp⟩ := hpar
      obtain ⟨c, hc, hcr⟩ := exists_subtree_of_mem_refs hin
      exact parent_inside_absurd hwf hnn h0 h1 htb (hbr ▸ hb)
        (h0.blocks j (List.mem_cons_of_mem _ hj)) hjp hc hcr

theorem Inv3.afterStep3 {page : List Node} (hwf : WellFormed page)
    (hop : OneBlockPerParent page) (hpa : ParentsAccept page) {hl : Highlighter}
    (hhl : ∀ d e r, hl d e r ≠ .threw) (st : State) (b : Ref) (rest : List Ref)
    (h : ((Inv0 page st (b :: rest) ∧ Inv1 page st) ∧ Inv2 page st (b :: rest))
      ∧ Inv3 page st (b :: rest)) :
    ((Inv0 page (decorateBlock hl st b).1 rest ∧ Inv1 page (decorateBlock hl st b).1)
        ∧ Inv2 page (decorateBlock hl st b).1 rest)
      ∧ Inv3 page (decorateBlock hl st b).1 rest := by
  have hnn := hop.noNesting hwf
  refine ⟨Inv2.preserved hwf hnn hpa hhl st b rest h.1, ?_⟩
  obtain ⟨⟨⟨h0, h1⟩, _⟩, h3⟩ := h
  obtain ⟨pp, gg, hpp, hgg, l1, l2⟩ := safe_lookups hwf hpa h0 h1
  rw [decorateBlock_of_parents l1 l2]
  have h0m : Inv0 page { st with created := st.created + 3 } (b :: rest) := h0.of_eq rfl rfl rfl
  have h1m : Inv1 page { st with created := st.created + 3 } := h1.made _
  have h3m : Inv3 page { st with created := st.created + 3 } (b :: rest) :=
    ⟨h3.adj, h3.nodup, h3.order⟩
  have h0i := (h0m.insert hwf st.created gg pp).called b
  have h1i := (Inv1.afterInsert hwf hnn h0m h1m st.created
    (textContent st.document st.detached b) gg l1).afterCall b
  have h3i := (Inv3.afterInserting hwf hop h0m h1m h3m st.created
    (textContent st.document st.detached b) hpp hgg).afterCalling b
  simp only [highlightBlock]
  split
  · next e => exact absurd e (hhl _ _ _)
  · exact h3i
  · exact Inv3.afterWriting hwf hop h0i h1i h3i _ _

/-- On a well-formed page with one block per parent whose blocks have accepting parents, with
a highlighter that does not throw, the run ends without exception and the invariants hold of
its last state. -/
theorem Inv3.atLast3 {page : List Node} (hwf : WellFormed page) (hop : OneBlockPerParent page)
    (hpa : ParentsAccept page) {hl : Highlighter} (hhl : ∀ d e r, hl d e r ≠ .threw) :
    (onDOMContentLoaded hl page).2 = none
      ∧ ((Inv0 page (onDOMContentLoaded hl page).1 [] ∧ Inv1 page (onDOMContentLoaded hl page).1)
        ∧ Inv2 page (onDOMContentLoaded hl page).1 [])
      ∧ Inv3 page (onDOMContentLoaded hl page).1 [] :=
  forEach_ok (decorateBlock hl)
    (fun s rest => ((Inv0 page s rest ∧ Inv1 page s) ∧ Inv2 page s rest) ∧ Inv3 page s rest)
    (Inv3.afterStep3 hwf hop hpa hhl) (fun st b rest h => safe_ok hwf hpa hhl st b rest h.1) _ _
    ⟨⟨⟨Inv0.init hwf, Inv1.atStart hwf⟩, Inv2.initially hwf⟩, Inv3.atFirst hwf hop⟩

/-! ## The claims -/

/-- C7: starting from an empty registry, the setup makes nine calls of the register operation,
one per name and no name twice, and leaves exactly the nine names javascript, json, bash, html,
ini, toml, yaml, md, python, bound to the grammars javascript, json, bash, htmlbars, ini, ini,
yaml, markdown, python; every binding a call made is still there, so none was overwritten. -/
theorem setup_registers_nine_languages :
    registrations.length = 9
      ∧ (registrations.map Prod.fst).Nodup
      ∧ setup [] =
        [("javascript", .javascript), ("json", .json), ("bash", .bash), ("html", .htmlbars),
         ("ini", .ini), ("toml", .ini), ("yaml", .yaml), ("md", .markdown),
         ("python", .python)]
      ∧ (∀ entry ∈ registrations, entry ∈ setup [])
      ∧ (∀ entry ∈ setup [], entry ∈ registrations) := by
  decide

/-- C6: after the setup the names "ini" and "toml" resolve to the same grammar, the one imported
as `ini`, so highlighting a text as "ini" and as "toml" gives the same result, whatever the
engine computes from a grammar and a text. -/
theorem ini_and_toml_highlight_alike {α : Type} (render : Grammar → String → α) (code : String) :
    getLanguage (setup []) "ini" = some Grammar.ini
      ∧ getLanguage (setup []) "toml" = some Grammar.ini
      ∧ highlight render (setup []) "ini" code = highlight render (setup []) "toml" code := by
  have h1 : getLanguage (setup []) "ini" = some Grammar.ini := by decide
  have h2 : getLanguage (setup []) "toml" = some Grammar.ini := by decide
  exact ⟨h1, h2, by simp only [highlight, h1, h2]⟩

/-- C5: on a page without an element matching `pre code` the run ends without exception and
leaves the state as it was: the document is the page, nothing is inserted or removed, no element
is created and the highlighter is never called. -/
theorem no_blocks_no_effect (hl : Highlighter) (page : List Node)
    (h : querySelectorAll page = []) :
    onDOMContentLoaded hl page = (⟨page, [], 0, []⟩, none) := by
  simp [onDOMContentLoaded, h, forEach]

theorem no_blocks_no_effect_witness :
    querySelectorAll plainPage = []
      ∧ onDOMContentLoaded plainHighlighter plainPage = (⟨plainPage, [], 0, []⟩, none) :=
  ⟨by decide, no_blocks_no_effect plainHighlighter plainPage (by decide)⟩

/-- One step inserts no other node than a wrapper built by `copyWrapper`. -/
theorem trace_shape_step (hl : Highlighter) (st : State) (b : Ref)
    (h : ∀ b w p q, Event.inserted b w p q ∈ st.trace → ∃ n text, w = copyWrapper n text) :
    ∀ b' w p q, Event.inserted b' w p q ∈ (decorateBlock hl st b).1.trace →
      ∃ n text, w = copyWrapper n text := by
  refine decorateBlock_state hl st b
    (fun s => ∀ b' w p q, Event.inserted b' w p q ∈ s.trace → ∃ n text, w = copyWrapper n text)
    h ?_
  intro pre parent _ _ st1 e
  have key : ∀ b' w p q, Event.inserted b' w p q ∈ st1.trace ++ [Event.highlighted b] →
      ∃ n text, w = copyWrapper n text := by
    intro b' w p q hm
    rw [e] at hm
    simp only [State.insertBefore, List.mem_append, List.mem_singleton] at hm
    rcases hm with (hm | hm) | hm
    · exact h b' w p q hm
    · cases hm; exact ⟨_, _, rfl⟩
    · cases hm
  exact ⟨key, fun _ _ => key⟩

/-- C4: every wrapper the run inserts, on any page, is a `div` of class `doks-clipboard`
without attributes whose only child is a `button` of class `btn-clipboard btn btn-link` with the
one attribute `data-clipboard-text`, whose only child is a `span` of class `copy-status` without
attributes, children or text; the three are elements the script created. -/
theorem inserted_wrapper_shape (hl : Highlighter) (page : List Node) (b : Ref) (w : Node)
    (p q : Ref) (h : Event.inserted b w p q ∈ (onDOMContentLoaded hl page).1.trace) :
    ∃ n text, w =
      .element (.script (n + 2)) "div" "doks-clipboard" []
        [.element (.script (n + 1)) "button" "btn-clipboard btn btn-link"
          [("data-clipboard-text", text)]
          [.element (.script n) "span" "copy-status" [] []]] := by
  obtain ⟨_, hI, _⟩ := forEach_invariant (decorateBlock hl)
    (fun s _ => ∀ b w p q, Event.inserted b w p q ∈ s.trace → ∃ n text, w = copyWrapper n text)
    (fun st b _ => trace_shape_step hl st b) (querySelectorAll page) ⟨page, [], 0, []⟩
    (by intro b w p q hm; simp at hm)
  obtain ⟨n, text, e⟩ := hI b w p q h
  exact ⟨n, text, e.trans (copyWrapper_eq n text)⟩

theorem jsonPage_trace :
    (onDOMContentLoaded plainHighlighter jsonPage).1.trace =
      [Event.inserted (.page 2) (copyWrapper 0 jsonText) (.page 0) (.page 1),
       Event.highlighted (.page 2)] := by
  rfl

theorem inserted_wrapper_shape_witness :
    ∃ n text, copyWrapper 0 jsonText =
      .element (.script (n + 2)) "div" "doks-clipboard" []
        [.element (.script (n + 1)) "button" "btn-clipboard btn btn-link"
          [("data-clipboard-text", text)]
          [.element (.script n) "span" "copy-status" [] []]] :=
  inserted_wrapper_shape plainHighlighter jsonPage (.page 2) (copyWrapper 0 jsonText)
    (.page 0) (.page 1) (by rw [jsonPage_trace]; exact List.mem_cons_self _ _)

/-- C3: on every well-formed page, every wrapper the run inserts was inserted for an element
matching `pre code`, and the `data-clipboard-text` attribute of the one button in it is the
text content that block had in the page, character for character; so the wrapper of a block
never carries the text of another block. -/
theorem payload_is_block_text (hl : Highlighter) (page : List Node) (hwf : WellFormed page)
    (b : Ref) (w : Node) (p q : Ref)
    (h : Event.inserted b w p q ∈ (onDOMContentLoaded hl page).1.trace) :
    b ∈ querySelectorAll page
      ∧ ∃ button, w.childNodes = [button]
          ∧ button.getAttribute "data-clipboard-text" = some (textContent page [] b) := by
  obtain ⟨_, hI, _⟩ := Inv0.final hwf hl
  obtain ⟨hb, n, e⟩ := hI.payload b w p q h
  refine ⟨hb, ?_⟩
  subst e
  exact ⟨copyButton n (textContent page [] b), rfl, rfl⟩

theorem twoBlockPage_trace :
    (onDOMContentLoaded plainHighlighter twoBlockPage).1.trace =
      [Event.inserted (.page 2) (copyWrapper 0 " x\n") (.page 0) (.page 1),
       Event.highlighted (.page 2),
       Event.inserted (.page 5) (copyWrapper 3 "y  ") (.page 0) (.page 4),
       Event.highlighted (.page 5)] := by
  rfl

theorem payload_is_block_text_witness :
    WellFormed twoBlockPage
      ∧ textContent twoBlockPage [] (.page 5) = "y  "
      ∧ (.page 5 ∈ querySelectorAll twoBlockPage
        ∧ ∃ button, (copyWrapper 3 "y  ").childNodes = [button]
          ∧ button.getAttribute "data-clipboard-text"
            = some (textContent twoBlockPage [] (.page 5))) :=
  ⟨by decide, by decide,
    payload_is_block_text plainHighlighter twoBlockPage (by decide) (.page 5)
      (copyWrapper 3 "y  ") (.page 0) (.page 4)
      (by rw [twoBlockPage_trace]; simp)⟩

/-- C1, the claim as stated fails: on the well-formed page
`<body><pre><code>a<code>b</code></code></pre></body>` two elements match `pre code`, the
highlighter's write to the outer one removes the inner one from the document, the step for the
inner one ends in a `TypeError`, and one wrapper, not two, is in the document (none in the
removed trees). Likewise one element matches in the document `<pre><code>a</code></pre>`,
where the parent of `pre` is the document node, which refuses the wrapper, and no wrapper is
inserted; and with a highlighter that throws, the run on a page with two blocks ends after the
first wrapper. -/
theorem nested_blocks_get_one_wrapper :
    (WellFormed nestedPage
      ∧ (querySelectorAll nestedPage).length = 2
      ∧ (onDOMContentLoaded plainHighlighter nestedPage).2 = some Failure.typeError
      ∧ (wrapperNodes (onDOMContentLoaded plainHighlighter nestedPage).1.document).length = 1
      ∧ (wrapperNodes (onDOMContentLoaded plainHighlighter nestedPage).1.detached).length = 0)
    ∧ (WellFormed rootPrePage
      ∧ (querySelectorAll rootPrePage).length = 1
      ∧ (onDOMContentLoaded plainHighlighter rootPrePage).2
        = some Failure.hierarchyRequestError
      ∧ (wrapperNodes (onDOMContentLoaded plainHighlighter rootPrePage).1.document).length = 0)
    ∧ ((querySelectorAll twoBlockPage).length = 2
      ∧ (onDOMContentLoaded throwingHighlighter twoBlockPage).2
        = some Failure.highlighterError
      ∧ (wrapperNodes
          (onDOMContentLoaded throwingHighlighter twoBlockPage).1.document).length = 1) := by
  decide

/-- C1, amended: on a well-formed page on which no element matching `pre code` lies inside
another one and the parent of each of them has an element as parent, with a highlighter that
does not throw, the run ends without exception, a wrapper was inserted for each matching
element in document order, and the document holds exactly as many wrappers as matching
elements. -/
theorem one_wrapper_per_block (hl : Highlighter) (page : List Node) (hwf : WellFormed page)
    (hnn : NoNesting page) (hpa : ParentsAccept page) (hhl : ∀ d e r, hl d e r ≠ .threw) :
    (onDOMContentLoaded hl page).2 = none
      ∧ insertedFor (onDOMContentLoaded hl page).1.trace = querySelectorAll page
      ∧ (wrapperNodes (onDOMContentLoaded hl page).1.document).length
        = (querySelectorAll page).length := by
  obtain ⟨hok, _, h2⟩ := Inv2.atLast hwf hnn hpa hhl
  refine ⟨hok, ?_, by simpa using h2.count⟩
  have hs := h2.shape
  simp only [List.flatMap_nil, List.append_nil] at hs
  rw [insertedFor_eq, hs, insertions_of_steps]

theorem one_wrapper_per_block_witness :
    (WellFormed twoBlockPage ∧ NoNesting twoBlockPage ∧ ParentsAccept twoBlockPage)
      ∧ (querySelectorAll twoBlockPage).length = 2
      ∧ ((onDOMContentLoaded plainHighlighter twoBlockPage).2 = none
        ∧ insertedFor (onDOMContentLoaded plainHighlighter twoBlockPage).1.trace
          = querySelectorAll twoBlockPage
        ∧ (wrapperNodes (onDOMContentLoaded plainHighlighter twoBlockPage).1.document).length
          = (querySelectorAll twoBlockPage).length) :=
  ⟨by decide, by decide,
    one_wrapper_per_block plainHighlighter twoBlockPage (by decide) (by decide) (by decide)
      plainHighlighter_total⟩

/-- C8, the claim as stated fails: on the page
`<body><pre><code>a<code>b</code></code></pre></body>` the elements matching `pre code` are the
outer and the inner `code`, and the highlighter is called on the outer one only, since the
step for the inner one fails before its call; and a highlighter that throws at its first call
is not called on the second block of a page with two blocks. -/
theorem nested_blocks_get_one_call :
    (querySelectorAll nestedPage = [Ref.page 2, Ref.page 4]
      ∧ highlighterCalls (onDOMContentLoaded plainHighlighter nestedPage).1.trace = [Ref.page 2]
      ∧ (onDOMContentLoaded plainHighlighter nestedPage).2 = some Failure.typeError)
    ∧ (querySelectorAll twoBlockPage = [Ref.page 2, Ref.page 5]
      ∧ highlighterCalls (onDOMContentLoaded throwingHighlighter twoBlockPage).1.trace
        = [Ref.page 2]
      ∧ (onDOMContentLoaded throwingHighlighter twoBlockPage).2
        = some Failure.highlighterError) := by
  decide

/-- C8, amended: on a well-formed page on which no element matching `pre code` lies inside
another one and the parent of each of them has an element as parent, with a highlighter that
does not throw, the highlighter is called once on each matching element and on nothing else, in
document order, and the steps of the run are, block after block in document order, the
insertion of the block's wrapper followed by the call of the highlighter on the block. -/
theorem highlighter_called_once_per_block (hl : Highlighter) (page : List Node)
    (hwf : WellFormed page) (hnn : NoNesting page) (hpa : ParentsAccept page)
    (hhl : ∀ d e r, hl d e r ≠ .threw) :
    highlighterCalls (onDOMContentLoaded hl page).1.trace = querySelectorAll page
      ∧ (onDOMContentLoaded hl page).1.trace.map Event.shape
        = (querySelectorAll page).flatMap (fun b => [(b, true), (b, false)]) := by
  obtain ⟨_, _, h2⟩ := Inv2.atLast hwf hnn hpa hhl
  have hs := h2.shape
  simp only [List.flatMap_nil, List.append_nil] at hs
  exact ⟨by rw [highlighterCalls_eq, hs, calls_of_steps], hs⟩

theorem highlighter_called_once_per_block_witness :
    querySelectorAll twoBlockPage = [Ref.page 2, Ref.page 5]
      ∧ (highlighterCalls (onDOMContentLoaded plainHighlighter twoBlockPage).1.trace
          = querySelectorAll twoBlockPage
        ∧ (onDOMContentLoaded plainHighlighter twoBlockPage).1.trace.map Event.shape
          = (querySelectorAll twoBlockPage).flatMap (fun b => [(b, true), (b, false)])) :=
  ⟨by decide,
    highlighter_called_once_per_block plainHighlighter twoBlockPage (by decide) (by decide)
      (by decide) plainHighlighter_total⟩

/-- C9: on every well-formed page on which the parent of each element matching `pre code` has
an element as parent and no matching element lies inside another one, the run ends without
exception when the highlighter does not throw; and on the page
`<body><pre><code>a<code>b</code></code></pre></body>`, where the inner matching element lies
inside the outer one and all parents accept a child, the highlighter's write to the outer
block leaves the inner one without parent and the run ends in a `TypeError` at the inner
block: a wrapper is inserted and the highlighter called for the outer block only. -/
theorem run_completes_unless_nested :
    (∀ (hl : Highlighter) (page : List Node), WellFormed page → ParentsAccept page →
        NoNesting page → (∀ d e r, hl d e r ≠ .threw) →
        (onDOMContentLoaded hl page).2 = none)
      ∧ (WellFormed nestedPage ∧ ParentsAccept nestedPage
        ∧ querySelectorAll nestedPage = [Ref.page 2, Ref.page 4]
        ∧ Ref.page 4 ∈ subtreeRefs nestedPage (Ref.page 2)
        ∧ (onDOMContentLoaded plainHighlighter nestedPage).2 = some Failure.typeError
        ∧ insertedFor (onDOMContentLoaded plainHighlighter nestedPage).1.trace = [Ref.page 2]
        ∧ highlighterCalls (onDOMContentLoaded plainHighlighter nestedPage).1.trace
          = [Ref.page 2]
        ∧ parentNode (onDOMContentLoaded plainHighlighter nestedPage).1.document
            (onDOMContentLoaded plainHighlighter nestedPage).1.detached (Ref.page 4)
          = Parent.null) :=
  ⟨fun _ _ hwf hpa hnn hhl => (Inv2.atLast hwf hnn hpa hhl).1, by decide⟩

theorem run_completes_unless_nested_witness :
    (WellFormed twoBlockPage ∧ ParentsAccept twoBlockPage ∧ NoNesting twoBlockPage)
      ∧ (onDOMContentLoaded plainHighlighter twoBlockPage).2 = none :=
  ⟨by decide,
    run_completes_unless_nested.1 plainHighlighter twoBlockPage (by decide) (by decide)
      (by decide) plainHighlighter_total⟩

/-- C10, the claim as stated fails: on the well-formed page
`<body><pre><code class="nohighlight"><span><code>b</code></span></code></pre></body>` the
run ends without exception, the highlighter leaves the outer block untouched, and the wrapper
of the inner block is inserted inside the outer block; and on the page
`<body><pre><code>a<code>b</code></code></pre></body>` the inner block is no longer a child of
its original parent. -/
theorem wrapper_inside_nested_block :
    WellFormed unhighlightedNestedPage
      ∧ querySelectorAll unhighlightedNestedPage = [Ref.page 2, Ref.page 4]
      ∧ (onDOMContentLoaded plainHighlighter unhighlightedNestedPage).2 = none
      ∧ wrappersInside (onDOMContentLoaded plainHighlighter unhighlightedNestedPage).1.document
          (Ref.page 2) = 1
      ∧ parentNode nestedPage [] (Ref.page 4) = Parent.element (Ref.page 2)
      ∧ parentNode (onDOMContentLoaded plainHighlighter nestedPage).1.document
            (onDOMContentLoaded plainHighlighter nestedPage).1.detached (Ref.page 4)
          = Parent.null := by
  decide

/-- C10, amended: on a well-formed page on which no element matching `pre code` lies inside
another one, for every highlighter, whether or not the run ends in an exception: the document
without the nodes the script created is the page, the class and the contents of the matching
elements left out of account (every other node is there, under its parent, in its sibling
order); every matching element is a child of the element that was its parent in the page; and
no wrapper lies inside a matching element. -/
theorem run_only_adds_wrappers (hl : Highlighter) (page : List Node) (hwf : WellFormed page)
    (hnn : NoNesting page) :
    blankList (querySelectorAll page)
        (withoutScriptList (onDOMContentLoaded hl page).1.document)
      = blankList (querySelectorAll page) page
      ∧ (∀ b ∈ querySelectorAll page,
          parentNode (onDOMContentLoaded hl page).1.document
            (onDOMContentLoaded hl page).1.detached b = parentNode page [] b)
      ∧ (∀ t ∈ subtreesList (onDOMContentLoaded hl page).1.document,
          t.ref ∈ querySelectorAll page → wrapperNodes t.childNodes = []) := by
  obtain ⟨_, ⟨h0, h1⟩, _⟩ := Inv1.atEnd hwf hnn hl
  refine ⟨frame_final hwf hl, ?_, ?_⟩
  · intro b hb
    obtain ⟨pp, hpp⟩ := block_parent hb
    rw [Inv1.parentNode_block hwf h0 h1 hb hpp, parentNode_page hwf hpp]
  · intro t ht hb
    have := countP_isWrapper_eq_zero (h1.clean t.ref hb t ht rfl)
    rw [← wrapperNodes_length] at this
    exact List.length_eq_zero.1 this

theorem run_only_adds_wrappers_witness :
    (WellFormed twoBlockPage ∧ NoNesting twoBlockPage)
      ∧ (blankList (querySelectorAll twoBlockPage)
          (withoutScriptList (onDOMContentLoaded plainHighlighter twoBlockPage).1.document)
        = blankList (querySelectorAll twoBlockPage) twoBlockPage
        ∧ (∀ b ∈ querySelectorAll twoBlockPage,
          parentNode (onDOMContentLoaded plainHighlighter twoBlockPage).1.document
            (onDOMContentLoaded plainHighlighter twoBlockPage).1.detached b
          = parentNode twoBlockPage [] b)
        ∧ (∀ t ∈ subtreesList (onDOMContentLoaded plainHighlighter twoBlockPage).1.document,
          t.ref ∈ querySelectorAll twoBlockPage → wrapperNodes t.childNodes = [])) :=
  ⟨by decide, run_only_adds_wrappers plainHighlighter twoBlockPage (by decide) (by decide)⟩

/-- C2, the claim as stated fails: on the well-formed page
`<body><pre><code>a</code><code>b</code></pre></body>`, where two matching elements share the
parent `pre`, the run ends without exception and both wrappers are inserted before `pre`, so
the second wrapper, not the first, is the previous sibling of the parent of the first block;
and on the page `<body><pre><span><code>a</code></span><code>b</code></pre></body>`, where
the parents differ, the nodes of the second block's wrapper come before those of the first
block's wrapper in document order. -/
theorem shared_parent_wrapper_not_adjacent :
    (WellFormed sharedParentPage
      ∧ querySelectorAll sharedParentPage = [Ref.page 2, Ref.page 4]
      ∧ (onDOMContentLoaded plainHighlighter sharedParentPage).2 = none
      ∧ insertedFor (onDOMContentLoaded plainHighlighter sharedParentPage).1.trace
        = [Ref.page 2, Ref.page 4]
      ∧ (insertedWrappers (onDOMContentLoaded plainHighlighter sharedParentPage).1.trace).map
          Node.ref = [Ref.script 2, Ref.script 5]
      ∧ parentNode (onDOMContentLoaded plainHighlighter sharedParentPage).1.document
          (onDOMContentLoaded plainHighlighter sharedParentPage).1.detached (Ref.page 2)
        = Parent.element (Ref.page 1)
      ∧ isPreviousSibling (onDOMContentLoaded plainHighlighter sharedParentPage).1.document
          (Ref.script 2) (Ref.page 1) = false
      ∧ isPreviousSibling (onDOMContentLoaded plainHighlighter sharedParentPage).1.document
          (Ref.script 5) (Ref.page 1) = true)
    ∧ (WellFormed uncleParentPage
      ∧ querySelectorAll uncleParentPage = [Ref.page 3, Ref.page 5]
      ∧ (onDOMContentLoaded plainHighlighter uncleParentPage).2 = none
      ∧ (insertedWrappers (onDOMContentLoaded plainHighlighter uncleParentPage).1.trace).map
          Node.ref = [Ref.script 2, Ref.script 5]
      ∧ (refsList (onDOMContentLoaded plainHighlighter uncleParentPage).1.document).filter
          Ref.isScript
        = [Ref.script 5, Ref.script 4, Ref.script 3, Ref.script 2, Ref.script 1,
            Ref.script 0]) := by
  decide

/-- C2, amended: on a well-formed page on which every element matching `pre code` is the only
one inside its parent element and that parent has an element as parent, with a highlighter
that does not throw, the run ends without exception, a wrapper is inserted for each matching
element in document order, each wrapper is in the final document the previous sibling of the
element that is the parent of its block, in the page and in the final document, and in
document order the nodes the script created are the nodes of the wrappers in the order of
their insertion, so the wrappers come in the order of their blocks. -/
theorem wrapper_precedes_parent (hl : Highlighter) (page : List Node) (hwf : WellFormed page)
    (hop : OneBlockPerParent page) (hpa : ParentsAccept page)
    (hhl : ∀ d e r, hl d e r ≠ .threw) :
    (onDOMContentLoaded hl page).2 = none
      ∧ insertedFor (onDOMContentLoaded hl page).1.trace = querySelectorAll page
      ∧ (∀ b w g p, Event.inserted b w g p ∈ (onDOMContentLoaded hl page).1.trace →
          parentNode page [] b = .element p
            ∧ parentNode (onDOMContentLoaded hl page).1.document
                (onDOMContentLoaded hl page).1.detached b = .element p
            ∧ isPreviousSibling (onDOMContentLoaded hl page).1.document w.ref p = true)
      ∧ (refsList (onDOMContentLoaded hl page).1.document).filter Ref.isScript
        = (insertedWrappers (onDOMContentLoaded hl page).1.trace).flatMap Node.refs := by
  obtain ⟨hok, ⟨⟨h0, h1⟩, h2⟩, h3⟩ := Inv3.atLast3 hwf hop hpa hhl
  refine ⟨hok, ?_, ?_, ?_⟩
  · have hs := h2.shape
    simp only [List.flatMap_nil, List.append_nil] at hs
    rw [insertedFor_eq, hs, insertions_of_steps]
  · intro b w g p hm
    obtain ⟨hb, _, hp, _, hadj⟩ := h3.adj b w g p hm
    exact ⟨parentNode_page hwf hp, Inv1.parentNode_block hwf h0 h1 hb hp, hadj⟩
  · have ho := h3.order
    simp only [parentsOf, List.filterMap_nil, List.not_mem_nil, decide_False, Bool.or_false,
      List.append_nil] at ho
    exact ho

theorem wrapper_precedes_parent_witness :
    (WellFormed twoBlockPage ∧ OneBlockPerParent twoBlockPage ∧ ParentsAccept twoBlockPage)
      ∧ ((onDOMContentLoaded plainHighlighter twoBlockPage).2 = none
        ∧ insertedFor (onDOMContentLoaded plainHighlighter twoBlockPage).1.trace
          = querySelectorAll twoBlockPage
        ∧ (∀ b w g p,
          Event.inserted b w g p ∈ (onDOMContentLoaded plainHighlighter twoBlockPage).1.trace →
            parentNode twoBlockPage [] b = .element p
              ∧ parentNode (onDOMContentLoaded plainHighlighter twoBlockPage).1.document
                  (onDOMContentLoaded plainHighlighter twoBlockPage).1.detached b = .element p
              ∧ isPreviousSibling (onDOMContentLoaded plainHighlighter twoBlockPage).1.document
                  w.ref p = true)
        ∧ (refsList (onDOMContentLoaded plainHighlighter twoBlockPage).1.document).filter
            Ref.isScript
          = (insertedWrappers
              (onDOMContentLoaded plainHighlighter twoBlockPage).1.trace).flatMap Node.refs) :=
  ⟨by decide,
    wrapper_precedes_parent plainHighlighter twoBlockPage (by decide) (by decide) (by decide)
      plainHighlighter_total⟩

end Doks
